import Mathlib

set_option maxRecDepth 8192

/-!
Verification of the stylist-rs CSS parser (`packages/stylist-core/src/parser.rs`).

The parser is a hand-rolled recursive-descent parser written with the `nom`
combinator library over `&str`.  We shallowly embed it here: the input is a
`List Char`, a parser is a function `Input → Option (α × Input)` (nom's
`Err::Error`/`Err::Failure`/`Err::Incomplete` all collapse to `none`; the
source never uses `Failure`, and `complete`-mode combinators never produce
`Incomplete`).  Each nom combinator used by the source is reproduced with its
nom 7 semantics, including the zero-length-match loop checks of `many0`,
`many1` and `separated_list0`.  The two recursive grammar entries
(`rule_contents` via `rule_curly_braces`, and `scope_contents` via `at_rule`)
are fuel-indexed; `parse` supplies fuel `input.length + 1`, which is ample
because every recursive entry first consumes at least one character.
-/

namespace Stylist

/-!
## AST types

`stylist-core/src/ast` is only partially present in the sources
(`style_attr.rs`); the remaining node shapes are fixed by their construction
sites in `parser.rs`, by the doc tree in `stylist/src/ast.rs`, and by the
in-repo tests.  In particular `StringFragment` is a plain wrapper around text
(`StringFragment { inner: ... }` is the only constructor used by the parser);
it has no literal/interpolation distinction.
-/

/-- A fragment of string content: the raw consumed text. -/
structure StringFragment where
  inner : String
deriving DecidableEq, Repr

/-- `StyleAttribute { key, value }` from `ast/style_attr.rs`. -/
structure StyleAttribute where
  key : String
  value : List StringFragment
deriving DecidableEq, Repr

/-- A selector: an ordered sequence of fragments. -/
structure Selector where
  fragments : List StringFragment
deriving DecidableEq, Repr

/-- `Block { condition, style_attributes }`. -/
structure Block where
  condition : List Selector
  style_attributes : List StyleAttribute
deriving DecidableEq, Repr

mutual
/-- `Rule { condition, content }`: an at-rule. -/
inductive Rule where
  | mk : List StringFragment → List RuleContent → Rule

/-- `RuleContent`: block, nested rule, or raw string. -/
inductive RuleContent where
  | block : Block → RuleContent
  | rule : Rule → RuleContent
  | str : String → RuleContent
end

/-- The condition (prelude fragments) of a rule. -/
def Rule.condition : Rule → List StringFragment
  | .mk c _ => c

/-- The content of a rule. -/
def Rule.content : Rule → List RuleContent
  | .mk _ c => c

/-- `ScopeContent`: block or at-rule. -/
inductive ScopeContent where
  | block : Block → ScopeContent
  | rule : Rule → ScopeContent

/-- `From<ScopeContent> for RuleContent` (used by `at_rule`). -/
def ScopeContent.toRuleContent : ScopeContent → RuleContent
  | .block b => .block b
  | .rule r => .rule r

/-- `Sheet`: ordered sequence of scope contents. -/
structure Sheet where
  contents : List ScopeContent

/-!
## Parser combinators (nom 7 semantics)
-/

/-- Parser input: the remaining characters of the source text. -/
abbrev Input := List Char

/-- A parser: either fails, or returns a value and the remaining input. -/
abbrev P (α : Type) : Type := Input → Option (α × Input)

/-- `Parser::expect_non_empty` guarding a parser body. -/
def withNonEmpty (p : P α) : P α := fun i =>
  match i with
  | [] => none
  | _ => p i

/-- Helper for `tag`: strip an expected literal off the input. -/
def tagGo : Input → Input → Option Input
  | [], i => some i
  | _, [] => none
  | c :: s, d :: i => if c = d then tagGo s i else none

/-- nom `tag`. -/
def pTag (s : Input) : P Input := fun i =>
  match tagGo s i with
  | some r => some (s, r)
  | none => none

/-- nom `take_while` (never fails). -/
def pTakeWhile (f : Char → Bool) : P Input := fun i =>
  some (i.takeWhile f, i.dropWhile f)

/-- nom `take_while1` (fails on an empty match). -/
def pTakeWhile1 (f : Char → Bool) : P Input := fun i =>
  match i.takeWhile f with
  | [] => none
  | l => some (l, i.dropWhile f)

/-- nom `is_not`: longest nonempty run of characters not in the set. -/
def pIsNot (bad : Input) : P Input :=
  pTakeWhile1 (fun c => !(bad.contains c))

/-- nom `none_of`: a single character not in the set. -/
def pNoneOf (bad : Input) : P Char := fun i =>
  match i with
  | [] => none
  | c :: r => if bad.contains c then none else some (c, r)

/-- nom `char`. -/
def pChar (c : Char) : P Char := fun i =>
  match i with
  | [] => none
  | d :: r => if d = c then some (c, r) else none

/-- nom `anychar`. -/
def pAnyChar : P Char := fun i =>
  match i with
  | [] => none
  | c :: r => some (c, r)

/-- nom `alpha1`: one or more ASCII letters. -/
def pAlpha1 : P Input := pTakeWhile1 Char.isAlpha

/-- nom `alphanumeric1`: one or more ASCII alphanumerics. -/
def pAlphanumeric1 : P Input := pTakeWhile1 Char.isAlphanum

/-- Rust `!char::is_ascii`. -/
def isNonAscii (c : Char) : Bool := decide (127 < c.toNat)

/-- nom `map`. -/
def pMap (f : α → β) (p : P α) : P β := fun i =>
  match p i with
  | some (a, r) => some (f a, r)
  | none => none

/-- nom `map_res` (a `none` result of `f` is an `Err::Error`). -/
def pMapRes (f : α → Option β) (p : P α) : P β := fun i =>
  match p i with
  | some (a, r) =>
    match f a with
    | some b => some (b, r)
    | none => none
  | none => none

/-- nom `opt`. -/
def pOpt (p : P α) : P (Option α) := fun i =>
  match p i with
  | some (a, r) => some (some a, r)
  | none => some (none, i)

/-- nom `alt` of two parsers (nested for more). -/
def pAlt (p q : P α) : P α := fun i =>
  match p i with
  | some x => some x
  | none => q i

/-- nom `pair`. -/
def pPair (p : P α) (q : P β) : P (α × β) := fun i =>
  match p i with
  | some (a, r) =>
    match q r with
    | some (b, r2) => some ((a, b), r2)
    | none => none
  | none => none

/-- nom `preceded`. -/
def pPreceded (p : P α) (q : P β) : P β := fun i =>
  match p i with
  | some (_, r) => q r
  | none => none

/-- nom `terminated`. -/
def pTerminated (p : P α) (q : P β) : P α := fun i =>
  match p i with
  | some (a, r) =>
    match q r with
    | some (_, r2) => some (a, r2)
    | none => none
  | none => none

/-- nom `delimited`. -/
def pDelimited (a : P α) (b : P β) (c : P γ) : P β := fun i =>
  match a i with
  | some (_, r1) =>
    match b r1 with
    | some (v, r2) =>
      match c r2 with
      | some (_, r3) => some (v, r3)
      | none => none
    | none => none
  | none => none

/-- nom `separated_pair`. -/
def pSeparatedPair (p : P α) (s : P σ) (q : P β) : P (α × β) := fun i =>
  match p i with
  | some (a, r1) =>
    match s r1 with
    | some (_, r2) =>
      match q r2 with
      | some (b, r3) => some ((a, b), r3)
      | none => none
    | none => none
  | none => none

/-- nom `recognize`: the consumed span, computed from the remaining length
exactly as nom slices by offset. -/
def pRecognize (p : P α) : P Input := fun i =>
  match p i with
  | some (_, r) => some (i.take (i.length - r.length), r)
  | none => none

/-- nom `not`: succeeds without consuming iff the inner parser fails. -/
def pNot (p : P α) : P Unit := fun i =>
  match p i with
  | some _ => none
  | none => some ((), i)

/-- The loop of nom `many0`/`many1`: stops on inner failure, errors on a
zero-length inner match (nom's infinite-loop check).  The fuel only bounds
the iteration count; each iteration consumes at least one character, so fuel
`input.length + 1` is never exhausted. -/
def many0Go (p : P α) : Nat → Input → Option (List α × Input)
  | 0, _ => none
  | fuel + 1, i =>
    match p i with
    | none => some ([], i)
    | some (a, r) =>
      if r.length < i.length then
        match many0Go p fuel r with
        | some (as_, r2) => some (a :: as_, r2)
        | none => none
      else none

/-- nom `many0`. -/
def pMany0 (p : P α) : P (List α) := fun i => many0Go p (i.length + 1) i

/-- nom `many1`: a first (unchecked) match, then the `many0` loop. -/
def pMany1 (p : P α) : P (List α) := fun i =>
  match p i with
  | none => none
  | some (a, r) =>
    match many0Go p (r.length + 1) r with
    | some (as_, r2) => some (a :: as_, r2)
    | none => none

/-- The loop of nom `separated_list0`: on separator failure stop; a
zero-length separator match is an error; on item failure after a separator,
backtrack to before the separator. -/
def sepListGo (s : P σ) (p : P α) : Nat → Input → Option (List α × Input)
  | 0, _ => none
  | fuel + 1, i =>
    match s i with
    | none => some ([], i)
    | some (_, r1) =>
      if r1.length < i.length then
        match p r1 with
        | none => some ([], i)
        | some (a, r2) =>
          match sepListGo s p fuel r2 with
          | some (as_, r3) => some (a :: as_, r3)
          | none => none
      else none

/-- nom `separated_list0`. -/
def pSepList0 (s : P σ) (p : P α) : P (List α) := fun i =>
  match p i with
  | none => some ([], i)
  | some (a, r) =>
    match sepListGo s p (r.length + 1) r with
    | some (as_, r2) => some (a :: as_, r2)
    | none => none

/-!
## The grammar (`impl Parser` in `parser.rs`)

`traced_context` only logs and is the identity on results; it is dropped.
Definitions keep the Rust method names (with a `P` suffix where a name would
be confusing in Lean).
-/

/-- The whitespace characters of `Parser::sp` (`" \t\r\n"`). -/
def spChars : Input := [' ', '\t', '\r', '\n']

/-- `Parser::sp`: non-empty input, then `take_while` whitespace. -/
def sp : P Input := withNonEmpty (pTakeWhile (fun c => spChars.contains c))

/-- `Parser::trimmed`. -/
def trimmed (f : P α) : P α := pDelimited (pOpt sp) f (pOpt sp)

/-- `Parser::cmt`. -/
def cmt : P Input := withNonEmpty (trimmed (pDelimited (pTag ['/', '*'])
  (pRecognize (pMany0 (pAlt (pIsNot ['*'])
    (pTerminated (pTag ['*']) (pNot (pChar '/'))))))
  (pTag ['*', '/'])))

/-- `Parser::trim_cmt`. -/
def trim_cmt (f : P α) : P α := pDelimited (pOpt cmt) f (pOpt cmt)

/-- `Parser::ident`. -/
def ident : P Input := pRecognize (pPreceded
  (pAlt (pTag ['-']) (pAlt (pTag ['_']) (pAlt pAlpha1 (pTakeWhile1 isNonAscii))))
  (pMany0 (pAlt (pTag ['-']) (pAlt (pTag ['_'])
    (pAlt pAlphanumeric1 (pTakeWhile1 isNonAscii))))))

/-- `Parser::style_attr_key`. -/
def style_attr_key : P Input := trimmed (trim_cmt (trimmed ident))

/-- Rust `str::trim` (both inputs here are ASCII, so the four whitespace
characters used by the parser cover `char::is_whitespace`). -/
def isWsChar (c : Char) : Bool := c == ' ' || c == '\t' || c == '\n' || c == '\r'

/-- Drop trailing whitespace. -/
def trimRight (l : Input) : Input := ((l.reverse.dropWhile isWsChar)).reverse

/-- Rust `str::trim`. -/
def trimChars (l : Input) : Input := trimRight (l.dropWhile isWsChar)

/-- Build a `StringFragment` from consumed text, as `StringFragment { inner:
m.trim().to_string() }`. -/
def mkFragment (m : Input) : StringFragment := ⟨String.mk (trimChars m)⟩

/-- `Parser::interpolation` (named with a `P` suffix). -/
def interpolationP : P Input := withNonEmpty (trimmed (pDelimited
  (pTag ['$', '{'])
  (trimmed (pRecognize (pPreceded pAlpha1
    (pMany0 (pAlt pAlphanumeric1 (pTag ['_']))))))
  (pTag ['}'])))

/-- `Parser::string` (named with a `P` suffix). -/
def stringP : P Input := withNonEmpty (trimmed (pRecognize (pPreceded
  (pTag ['"'])
  (pTerminated
    (pMany0 (pAlt (pIsNot ['\\', '"']) (pRecognize (pPreceded (pTag ['\\']) pAnyChar))))
    (pTag ['"'])))))

/-- `Parser::style_attr_value`. -/
def style_attr_value : P StringFragment :=
  trimmed (trim_cmt (trimmed (pMap mkFragment
    (pRecognize (pMany1 (pAlt (pIsNot ['$', '{', ';', '}', '/', '"'])
      (pAlt (pRecognize interpolationP) stringP)))))))

/-- `Parser::dangling_attribute` (`key : value ;`). -/
def dangling_attribute : P StyleAttribute := withNonEmpty (trimmed (pMap
  (fun p : Input × StringFragment =>
    ({ key := String.mk (trimChars p.1), value := [p.2] } : StyleAttribute))
  (pSeparatedPair style_attr_key (pTag [':'])
    (pTerminated style_attr_value (pTag [';'])))))

/-- `Parser::attribute` (`key : value`, named with a `P` suffix). -/
def attributeP : P StyleAttribute := withNonEmpty (trimmed (pMap
  (fun p : Input × StringFragment =>
    ({ key := String.mk (trimChars p.1), value := [p.2] } : StyleAttribute))
  (pSeparatedPair style_attr_key (pTag [':']) style_attr_value)))

/-- `Parser::dangling_attributes`. -/
def dangling_attributes : P (List StyleAttribute) :=
  withNonEmpty (trimmed (pMany1 dangling_attribute))

/-- `Parser::attributes`. -/
def attributes : P (List StyleAttribute) := withNonEmpty (trimmed (pTerminated
  (pSepList0 (pTag [';']) attributeP)
  (pPreceded (pOpt sp) (pOpt (pTag [';'])))))

/-- `Parser::selector` (named with a `P` suffix). -/
def selectorP : P Selector := withNonEmpty (trimmed (pMap
  (fun p : Input => (⟨[mkFragment p]⟩ : Selector))
  (pRecognize (pMany1 (pAlt
    (pRecognize (pPreceded (pNoneOf ['$', ',', '}', '@', '{', '"'])
      (pOpt (pIsNot ['$', ',', '"', '{']))))
    (pAlt stringP (pRecognize interpolationP)))))))

/-- `Parser::condition`: a selector list. -/
def conditionP : P (List Selector) :=
  withNonEmpty (trimmed (pMany1 (pTerminated selectorP (pOpt (pTag [','])))))

/-- `Parser::block`. -/
def block : P ScopeContent := withNonEmpty (trimmed (pMap
  (fun p : List Selector × List StyleAttribute =>
    ScopeContent.block ⟨p.1, p.2⟩)
  (pSeparatedPair conditionP (pTag ['{'])
    (pTerminated (trim_cmt attributes) (pTag ['}'])))))

/-- Rust `str::starts_with` (`p.0.starts_with("@media")` in `Parser::rule`). -/
def hasPfx : Input → Input → Bool
  | [], _ => true
  | _, [] => false
  | c :: p, d :: i => c == d && hasPfx p i

/-- `Parser::rule_string`: everything that is not curly braces. -/
def rule_string : P RuleContent := withNonEmpty (trimmed (pMap
  (fun p : Input => RuleContent.str (String.mk (trimChars p)))
  (pIsNot ['{', '}'])))

/-- `Parser::rule_curly_braces`, parameterized by the inner `rule_contents`
parser (the Rust code recurses directly). -/
def rule_curly_bracesW (inner : P (List RuleContent)) : P (List RuleContent) :=
  withNonEmpty (trimmed (pMap
    (fun m : List RuleContent =>
      (RuleContent.str ("\x7b" : String) :: m) ++ [RuleContent.str ("\x7d" : String)])
    (pDelimited (pTag ['{']) inner (pTag ['}']))))

/-- `Parser::rule_contents`, fuel-indexed for the recursion through
`rule_curly_braces`. -/
def rule_contents : Nat → P (List RuleContent)
  | 0 => fun _ => none
  | fuel + 1 => withNonEmpty (pMap (fun p : List (List RuleContent) => p.flatten)
    (pMany0 (pAlt (rule_curly_bracesW (rule_contents fuel))
      (pMap (fun s => [s]) rule_string))))

/-- `Parser::rule`: an opaque at-rule; rejects `@media`/`@supports` names
(the `map_res` in the source). -/
def ruleP (fuel : Nat) : P ScopeContent := withNonEmpty (trimmed (pMapRes
  (fun p : Input × List RuleContent =>
    if hasPfx ['@', 'm', 'e', 'd', 'i', 'a'] p.1 then none
    else if hasPfx ['@', 's', 'u', 'p', 'p', 'o', 'r', 't', 's'] p.1 then none
    else some (ScopeContent.rule (Rule.mk [⟨String.mk (trimChars p.1)⟩] p.2)))
  (pSeparatedPair (pRecognize (pPreceded (pTag ['@']) (pIsNot ['{'])))
    (pTag ['{'])
    (pTerminated (pTerminated (rule_contents fuel) (pOpt sp)) (pTag ['}'])))))

/-- `Parser::at_rule_condition`. -/
def at_rule_condition : P (List StringFragment) := withNonEmpty (trimmed (pMap
  (fun p : Input × StringFragment => [(⟨String.mk p.1⟩ : StringFragment), p.2])
  (pPair
    (pAlt (pTag ['@', 's', 'u', 'p', 'p', 'o', 'r', 't', 's', ' '])
      (pTag ['@', 'm', 'e', 'd', 'i', 'a', ' ']))
    (pMap (fun m : Input => (⟨String.mk (trimChars m)⟩ : StringFragment))
      (pRecognize (pMany1 (pAlt (pIsNot ['$', '{']) (pRecognize interpolationP))))))))

/-- `Parser::at_rule` (`@media`/`@supports`), parameterized by the inner
scope parser. -/
def at_ruleW (scope_inner : P (List ScopeContent)) : P ScopeContent :=
  withNonEmpty (trimmed (pMap
    (fun p : List StringFragment × List ScopeContent =>
      ScopeContent.rule (Rule.mk p.1 (p.2.map ScopeContent.toRuleContent)))
    (pSeparatedPair at_rule_condition (pTag ['{'])
      (pTerminated scope_inner (pTag ['}'])))))

/-- `Parser::dangling_block`. -/
def dangling_block : P ScopeContent := withNonEmpty (trimmed (pMap
  (fun attr : List StyleAttribute => ScopeContent.block ⟨[], attr⟩)
  dangling_attributes))

/-- `Parser::scope_contents`, fuel-indexed for the recursion through
`at_rule`. -/
def scope_contents : Nat → P (List ScopeContent)
  | 0 => fun _ => none
  | fuel + 1 => withNonEmpty (trimmed (pMany0
    (pAlt dangling_block (pAlt block
      (pAlt (at_ruleW (scope_contents fuel)) (ruleP fuel))))))

/-- `Parser::scope`. -/
def scope (fuel : Nat) : P (List ScopeContent) :=
  withNonEmpty (trimmed (scope_contents fuel))

/-- `Parser::sheet` (named with a `P` suffix). -/
def sheetP (fuel : Nat) : P Sheet := trimmed (pMap
  (fun p : List (List ScopeContent) => Sheet.mk p.flatten)
  (pMany0 (scope fuel)))

/-- The fuel supplied by `parse`: recursion depth is bounded by the input
length, since each recursive entry consumes at least one character. -/
def parseFuel (css : String) : Nat := css.data.length + 1

/-- `Parser::parse`: the sole entry point.  Error details (the rendered
`VerboseError`) are abstracted to `Unit`. -/
def parse (css : String) : Except Unit Sheet :=
  match sheetP (parseFuel css) css.data with
  | none => Except.error ()
  | some (res, _) => Except.ok res

/-!
## The parse cache (spec-modelled)
-/

/-- A cache state: the memo table entries, most recent first. -/
abbrev Cache := List (String × Sheet)

/-- Exact-key lookup in the cache. -/
def cacheLookup (t : String) : Cache → Option Sheet
  | [] => none
  | (k, sh) :: rest => if k = t then some sh else cacheLookup t rest

/-- Modelled from the spec: the single-flight memoizing parse cache of
spec section 4.5 (`Sheet::from_str` / `CACHED_SHEETS` live in
`stylist-core/src/ast/sheet.rs`, which is not among the provided sources).
Per the spec: look up the exact source string; on a hit return the stored
sheet without reparsing; on a miss run `parse`, store a successful result
keyed by the exact string, and do not cache failures (spec section 7).
The mutex serialization of concurrent callers is modelled by sequential
calls.  The `Bool` records whether the underlying parse work ran. -/
def cachedParse (c : Cache) (t : String) : (Except Unit Sheet × Cache) × Bool :=
  match cacheLookup t c with
  | some sh => ((Except.ok sh, c), false)
  | none =>
    match parse t with
    | Except.ok sh => ((Except.ok sh, (t, sh) :: c), true)
    | Except.error e => ((Except.error e, c), true)

/-- Modelled from the spec: a sequence of `parse` calls through the cache,
returning per call the text, the result, and whether parse work ran. -/
def runCalls (c : Cache) : List String → List (String × Except Unit Sheet × Bool)
  | [] => []
  | t :: rest =>
    let r := cachedParse c t
    (t, r.1.1, r.2) :: runCalls r.1.2 rest

/-- How often the underlying parse work ran for text `t` in a call log. -/
def workCount (t : String) (log : List (String × Except Unit Sheet × Bool)) : Nat :=
  (log.filter (fun e => e.1 == t && e.2.2)).length

/-- Cache coherence: every stored sheet is the successful parse of its key. -/
def CacheInv (c : Cache) : Prop := ∀ e ∈ c, parse e.1 = Except.ok e.2

/-!
## Invariant predicates and consumption properties
-/

/-- Every selector of the block is a single fragment, and every attribute
value is a single fragment. -/
def GoodBlock (b : Block) : Prop :=
  (∀ sel ∈ b.condition, sel.fragments.length = 1) ∧
  (∀ a ∈ b.style_attributes, a.value.length = 1)

mutual
/-- `GoodBlock` holds for every block nested in the rule content. -/
def GoodRC : RuleContent → Prop
  | .block b => GoodBlock b
  | .rule r => GoodRule r
  | .str _ => True

/-- `GoodRC` holds throughout the rule. -/
def GoodRule : Rule → Prop
  | .mk _ content => GoodRCList content

/-- `GoodRC` for each element of a list. -/
def GoodRCList : List RuleContent → Prop
  | [] => True
  | rc :: rest => GoodRC rc ∧ GoodRCList rest
end

/-- `GoodBlock` on every block of the scope content. -/
def GoodScope : ScopeContent → Prop
  | .block b => GoodBlock b
  | .rule r => GoodRule r

/-- `GoodBlock` on every block of the sheet. -/
def GoodSheet (s : Sheet) : Prop := ∀ sc ∈ s.contents, GoodScope sc

/-- A parser never leaves more input than it was given. -/
def Mono (p : P α) : Prop := ∀ i a r, p i = some (a, r) → r.length ≤ i.length

/-- A successful parse consumes at least one character. -/
def Strict (p : P α) : Prop := ∀ i a r, p i = some (a, r) → r.length < i.length

/-!
## Inversion lemmas for the combinators
-/

theorem withNonEmpty_eq_some {p : P α} {i : Input} {x : α × Input} :
    withNonEmpty p i = some x ↔ i ≠ [] ∧ p i = some x := by
  cases i <;> simp [withNonEmpty]

theorem tagGo_eq_some {s i r : Input} : tagGo s i = some r ↔ i = s ++ r := by
  induction s generalizing i with
  | nil => simp [tagGo, eq_comm]
  | cons c s ih =>
    cases i with
    | nil => simp [tagGo]
    | cons d i =>
      by_cases h : c = d
      · subst h; simp [tagGo, ih]
      · simp only [tagGo, if_neg h]
        simp
        exact fun h' => absurd h'.symm h

theorem pTag_eq_some {s i : Input} {o r : Input} :
    pTag s i = some (o, r) ↔ o = s ∧ i = s ++ r := by
  constructor
  · intro h
    unfold pTag at h
    rcases ht : tagGo s i with _ | r' <;> rw [ht] at h
    · exact Option.noConfusion h
    · injection h with h
      injection h with h1 h2
      subst h2
      exact ⟨h1.symm, tagGo_eq_some.mp ht⟩
  · rintro ⟨rfl, rfl⟩
    unfold pTag
    rw [tagGo_eq_some.mpr rfl]

theorem pTakeWhile_eq_some {f : Char → Bool} {i o r : Input} :
    pTakeWhile f i = some (o, r) ↔ o = i.takeWhile f ∧ r = i.dropWhile f := by
  simp [pTakeWhile, eq_comm, and_comm]

theorem pTakeWhile1_eq_some {f : Char → Bool} {i o r : Input} :
    pTakeWhile1 f i = some (o, r) ↔
      i.takeWhile f ≠ [] ∧ o = i.takeWhile f ∧ r = i.dropWhile f := by
  unfold pTakeWhile1
  rcases ht : i.takeWhile f with _ | ⟨c, t⟩ <;> simp [ht, eq_comm, and_comm]

theorem pNoneOf_eq_some {bad i : Input} {c : Char} {r : Input} :
    pNoneOf bad i = some (c, r) ↔ i = c :: r ∧ bad.contains c = false := by
  constructor
  · intro h
    unfold pNoneOf at h
    split at h
    · exact Option.noConfusion h
    · next d t =>
      split at h
      · exact Option.noConfusion h
      · next hb =>
        injection h with h
        injection h with h1 h2
        subst h1; subst h2
        exact ⟨rfl, Bool.not_eq_true _ ▸ hb⟩
  · rintro ⟨rfl, hb⟩
    unfold pNoneOf
    simp
    simpa using hb
theorem pChar_eq_some {x : Char} {i : Input} {c : Char} {r : Input} :
    pChar x i = some (c, r) ↔ c = x ∧ i = x :: r := by
  constructor
  · intro h
    unfold pChar at h
    split at h
    · exact Option.noConfusion h
    · next d t =>
      split at h
      · next hd =>
        injection h with h
        injection h with h1 h2
        subst hd; subst h1; subst h2
        exact ⟨rfl, rfl⟩
      · exact Option.noConfusion h
  · rintro ⟨rfl, rfl⟩
    unfold pChar
    simp
theorem pAnyChar_eq_some {i : Input} {c : Char} {r : Input} :
    pAnyChar i = some (c, r) ↔ i = c :: r := by
  constructor
  · intro h
    unfold pAnyChar at h
    split at h
    · exact Option.noConfusion h
    · next d t =>
      injection h with h
      injection h with h1 h2
      subst h1; subst h2
      rfl
  · rintro rfl
    rfl
theorem pMap_eq_some {f : α → β} {p : P α} {i : Input} {b : β} {r : Input} :
    pMap f p i = some (b, r) ↔ ∃ a, p i = some (a, r) ∧ b = f a := by
  unfold pMap
  rcases hp : p i with _ | ⟨a, rp⟩ <;> simp
  constructor
  · rintro ⟨rfl, rfl⟩; exact ⟨a, ⟨rfl, rfl⟩, rfl⟩
  · rintro ⟨a', ⟨rfl, rfl⟩, rfl⟩; exact ⟨rfl, rfl⟩

theorem pMapRes_eq_some {f : α → Option β} {p : P α} {i : Input} {b : β} {r : Input} :
    pMapRes f p i = some (b, r) ↔ ∃ a, p i = some (a, r) ∧ f a = some b := by
  constructor
  · intro h
    unfold pMapRes at h
    split at h
    · next a m heq =>
      split at h
      · next b2 hf =>
        injection h with h
        injection h with h1 h2
        subst h1; subst h2
        exact ⟨a, heq, hf⟩
      · exact Option.noConfusion h
    · exact Option.noConfusion h
  · rintro ⟨a, hp, hf⟩
    simp [pMapRes, hp, hf]
theorem pOpt_eq_some {p : P α} {i : Input} {o : Option α} {r : Input} :
    pOpt p i = some (o, r) ↔
      (∃ a, p i = some (a, r) ∧ o = some a) ∨ (p i = none ∧ o = none ∧ r = i) := by
  unfold pOpt
  rcases hp : p i with _ | ⟨a, rp⟩ <;> simp
  · constructor
    · rintro ⟨rfl, rfl⟩; exact ⟨rfl, rfl⟩
    · rintro ⟨rfl, rfl⟩; exact ⟨rfl, rfl⟩
  · constructor
    · rintro ⟨rfl, rfl⟩; exact ⟨a, ⟨rfl, rfl⟩, rfl⟩
    · rintro ⟨a', ⟨rfl, rfl⟩, rfl⟩; exact ⟨rfl, rfl⟩

theorem pAlt_eq_some {p q : P α} {i : Input} {x : α × Input} :
    pAlt p q i = some x ↔ p i = some x ∨ (p i = none ∧ q i = some x) := by
  unfold pAlt
  rcases hp : p i with _ | y <;> simp

theorem pPair_eq_some {p : P α} {q : P β} {i : Input} {a : α} {b : β} {r : Input} :
    pPair p q i = some ((a, b), r) ↔
      ∃ m, p i = some (a, m) ∧ q m = some (b, r) := by
  constructor
  · intro h
    unfold pPair at h
    split at h
    · next a2 m heq =>
      split at h
      · next b2 rq heq2 =>
        injection h with h
        injection h with h1 h2
        injection h1 with h3 h4
        subst h2; subst h3; subst h4
        exact ⟨m, heq, heq2⟩
      · exact Option.noConfusion h
    · exact Option.noConfusion h
  · rintro ⟨m, hp, hq⟩
    simp [pPair, hp, hq]
theorem pPreceded_eq_some {p : P α} {q : P β} {i : Input} {x : β × Input} :
    pPreceded p q i = some x ↔ ∃ a m, p i = some (a, m) ∧ q m = some x := by
  unfold pPreceded
  rcases hp : p i with _ | ⟨a, m⟩ <;> simp
  constructor
  · intro h; exact ⟨a, m, ⟨rfl, rfl⟩, h⟩
  · rintro ⟨a2, m2, ⟨rfl, rfl⟩, h⟩; exact h

theorem pTerminated_eq_some {p : P α} {q : P β} {i : Input} {a : α} {r : Input} :
    pTerminated p q i = some (a, r) ↔
      ∃ m b, p i = some (a, m) ∧ q m = some (b, r) := by
  constructor
  · intro h
    unfold pTerminated at h
    split at h
    · next a2 m heq =>
      split at h
      · next b2 rq heq2 =>
        injection h with h
        injection h with h1 h2
        subst h1; subst h2
        exact ⟨m, b2, heq, heq2⟩
      · exact Option.noConfusion h
    · exact Option.noConfusion h
  · rintro ⟨m, b, hp, hq⟩
    simp [pTerminated, hp, hq]
theorem pDelimited_eq_some {a : P α} {b : P β} {c : P γ} {i : Input} {v : β} {r : Input} :
    pDelimited a b c i = some (v, r) ↔
      ∃ x m1 m2 y, a i = some (x, m1) ∧ b m1 = some (v, m2) ∧ c m2 = some (y, r) := by
  constructor
  · intro h
    unfold pDelimited at h
    split at h
    · next x m1 ha =>
      split at h
      · next v2 m2 hb =>
        split at h
        · next y rc hc =>
          injection h with h
          injection h with h1 h2
          subst h1; subst h2
          exact ⟨x, m1, m2, y, ha, hb, hc⟩
        · exact Option.noConfusion h
      · exact Option.noConfusion h
    · exact Option.noConfusion h
  · rintro ⟨x, m1, m2, y, ha, hb, hc⟩
    simp [pDelimited, ha, hb, hc]
theorem pSeparatedPair_eq_some {p : P α} {s : P σ} {q : P β} {i : Input}
    {a : α} {b : β} {r : Input} :
    pSeparatedPair p s q i = some ((a, b), r) ↔
      ∃ m1 x m2, p i = some (a, m1) ∧ s m1 = some (x, m2) ∧ q m2 = some (b, r) := by
  constructor
  · intro h
    unfold pSeparatedPair at h
    split at h
    · next a2 m1 hp =>
      split at h
      · next x m2 hs =>
        split at h
        · next b2 rq hq =>
          injection h with h
          injection h with h1 h2
          injection h1 with h3 h4
          subst h2; subst h3; subst h4
          exact ⟨m1, x, m2, hp, hs, hq⟩
        · exact Option.noConfusion h
      · exact Option.noConfusion h
    · exact Option.noConfusion h
  · rintro ⟨m1, x, m2, hp, hs, hq⟩
    simp [pSeparatedPair, hp, hs, hq]
theorem pRecognize_eq_some {p : P α} {i o r : Input} :
    pRecognize p i = some (o, r) ↔
      ∃ a, p i = some (a, r) ∧ o = i.take (i.length - r.length) := by
  constructor
  · intro h
    unfold pRecognize at h
    split at h
    · next a rp hp =>
      injection h with h
      injection h with h1 h2
      subst h2
      exact ⟨a, hp, h1.symm⟩
    · exact Option.noConfusion h
  · rintro ⟨a, hp, rfl⟩
    simp [pRecognize, hp]
theorem pNot_eq_some {p : P α} {i : Input} {x : Unit × Input} :
    pNot p i = some x ↔ p i = none ∧ x = ((), i) := by
  unfold pNot
  rcases hp : p i with _ | y <;> simp
  exact eq_comm
theorem pMany0_eq {p : P α} {i : Input} :
    pMany0 p i = many0Go p (i.length + 1) i := rfl

theorem pMany1_eq_some {p : P α} {i : Input} {l : List α} {r : Input} :
    pMany1 p i = some (l, r) ↔
      ∃ a m tl, p i = some (a, m) ∧ many0Go p (m.length + 1) m = some (tl, r)
        ∧ l = a :: tl := by
  constructor
  · intro h
    unfold pMany1 at h
    split at h
    · exact Option.noConfusion h
    · next a m hp =>
      split at h
      · next tl rg hg =>
        injection h with h
        injection h with h1 h2
        subst h1; subst h2
        exact ⟨a, m, tl, hp, hg, rfl⟩
      · exact Option.noConfusion h
  · rintro ⟨a, m, tl, hp, hg, rfl⟩
    simp [pMany1, hp, hg]
theorem pSepList0_eq_some {s : P σ} {p : P α} {i : Input} {l : List α} {r : Input} :
    pSepList0 s p i = some (l, r) ↔
      (p i = none ∧ l = [] ∧ r = i) ∨
      (∃ a m tl, p i = some (a, m) ∧ sepListGo s p (m.length + 1) m = some (tl, r)
        ∧ l = a :: tl) := by
  constructor
  · intro h
    unfold pSepList0 at h
    split at h
    · next hp =>
      injection h with h
      injection h with h1 h2
      subst h1; subst h2
      exact Or.inl ⟨hp, rfl, rfl⟩
    · next a m hp =>
      split at h
      · next tl rg hg =>
        injection h with h
        injection h with h1 h2
        subst h1; subst h2
        exact Or.inr ⟨a, m, tl, hp, hg, rfl⟩
      · exact Option.noConfusion h
  · rintro (⟨hp, rfl, rfl⟩ | ⟨a, m, tl, hp, hg, rfl⟩)
    · simp [pSepList0, hp]
    · simp [pSepList0, hp, hg]

/-!
## Monotonicity and strictness
-/

theorem mono_of_strict {p : P α} (h : Strict p) : Mono p :=
  fun i a r hp => Nat.le_of_lt (h i a r hp)

theorem mono_withNonEmpty {p : P α} (hp : Mono p) : Mono (withNonEmpty p) :=
  fun i a r h => hp i a r (withNonEmpty_eq_some.mp h).2

theorem strict_withNonEmpty {p : P α} (hp : Strict p) : Strict (withNonEmpty p) :=
  fun i a r h => hp i a r (withNonEmpty_eq_some.mp h).2

theorem mono_pTag {s : Input} : Mono (pTag s) := by
  intro i a r h
  rw [(pTag_eq_some.mp h).2]
  simp

theorem strict_pTag {s : Input} (hs : s ≠ []) : Strict (pTag s) := by
  intro i a r h
  rw [(pTag_eq_some.mp h).2]
  have := List.length_pos.mpr hs
  simp
  omega

theorem mono_pTakeWhile {f : Char → Bool} : Mono (pTakeWhile f) := by
  intro i a r h
  rw [(pTakeWhile_eq_some.mp h).2]
  exact (List.dropWhile_suffix f).length_le

theorem mono_pTakeWhile1 {f : Char → Bool} : Mono (pTakeWhile1 f) := by
  intro i a r h
  rw [(pTakeWhile1_eq_some.mp h).2.2]
  exact (List.dropWhile_suffix f).length_le

theorem strict_pTakeWhile1 {f : Char → Bool} : Strict (pTakeWhile1 f) := by
  intro i a r h
  obtain ⟨hne, -, rfl⟩ := pTakeWhile1_eq_some.mp h
  conv_rhs => rw [← List.takeWhile_append_dropWhile (p := f) (l := i)]
  rw [List.length_append]
  have := List.length_pos.mpr hne
  omega

theorem mono_pIsNot {bad : Input} : Mono (pIsNot bad) := mono_pTakeWhile1

theorem strict_pIsNot {bad : Input} : Strict (pIsNot bad) := strict_pTakeWhile1

theorem mono_pNoneOf {bad : Input} : Mono (pNoneOf bad) := by
  intro i a r h
  rw [(pNoneOf_eq_some.mp h).1]
  simp

theorem mono_pChar {x : Char} : Mono (pChar x) := by
  intro i a r h
  rw [(pChar_eq_some.mp h).2]
  simp

theorem mono_pAnyChar : Mono pAnyChar := by
  intro i a r h
  rw [pAnyChar_eq_some.mp h]
  simp

theorem mono_pAlpha1 : Mono pAlpha1 := mono_pTakeWhile1

theorem mono_pAlphanumeric1 : Mono pAlphanumeric1 := mono_pTakeWhile1

theorem mono_pMap {f : α → β} {p : P α} (hp : Mono p) : Mono (pMap f p) := by
  intro i b r h
  obtain ⟨a, ha, -⟩ := pMap_eq_some.mp h
  exact hp i a r ha

theorem strict_pMap {f : α → β} {p : P α} (hp : Strict p) : Strict (pMap f p) := by
  intro i b r h
  obtain ⟨a, ha, -⟩ := pMap_eq_some.mp h
  exact hp i a r ha

theorem mono_pMapRes {f : α → Option β} {p : P α} (hp : Mono p) : Mono (pMapRes f p) := by
  intro i b r h
  obtain ⟨a, ha, -⟩ := pMapRes_eq_some.mp h
  exact hp i a r ha

theorem strict_pMapRes {f : α → Option β} {p : P α} (hp : Strict p) : Strict (pMapRes f p) := by
  intro i b r h
  obtain ⟨a, ha, -⟩ := pMapRes_eq_some.mp h
  exact hp i a r ha

theorem mono_pOpt {p : P α} (hp : Mono p) : Mono (pOpt p) := by
  intro i o r h
  rcases pOpt_eq_some.mp h with ⟨a, ha, -⟩ | ⟨-, -, rfl⟩
  · exact hp i a r ha
  · exact Nat.le_refl _

theorem mono_pAlt {p q : P α} (hp : Mono p) (hq : Mono q) : Mono (pAlt p q) := by
  intro i a r h
  rcases pAlt_eq_some.mp h with h1 | ⟨-, h1⟩
  · exact hp i a r h1
  · exact hq i a r h1

theorem strict_pAlt {p q : P α} (hp : Strict p) (hq : Strict q) : Strict (pAlt p q) := by
  intro i a r h
  rcases pAlt_eq_some.mp h with h1 | ⟨-, h1⟩
  · exact hp i a r h1
  · exact hq i a r h1

theorem mono_pPair {p : P α} {q : P β} (hp : Mono p) (hq : Mono q) : Mono (pPair p q) := by
  rintro i ⟨a, b⟩ r h
  obtain ⟨m, hp1, hq1⟩ := pPair_eq_some.mp h
  exact Nat.le_trans (hq m b r hq1) (hp i a m hp1)

theorem mono_pPreceded {p : P α} {q : P β} (hp : Mono p) (hq : Mono q) :
    Mono (pPreceded p q) := by
  rintro i x r h
  obtain ⟨a, m, hp1, hq1⟩ := pPreceded_eq_some.mp h
  exact Nat.le_trans (hq m x r hq1) (hp i a m hp1)

theorem mono_pTerminated {p : P α} {q : P β} (hp : Mono p) (hq : Mono q) :
    Mono (pTerminated p q) := by
  rintro i a r h
  obtain ⟨m, b, hp1, hq1⟩ := pTerminated_eq_some.mp h
  exact Nat.le_trans (hq m b r hq1) (hp i a m hp1)

theorem mono_pDelimited {a : P α} {b : P β} {c : P γ}
    (ha : Mono a) (hb : Mono b) (hc : Mono c) : Mono (pDelimited a b c) := by
  rintro i v r h
  obtain ⟨x, m1, m2, y, h1, h2, h3⟩ := pDelimited_eq_some.mp h
  exact Nat.le_trans (hc m2 y r h3) (Nat.le_trans (hb m1 v m2 h2) (ha i x m1 h1))

theorem strict_pDelimited_mid {a : P α} {b : P β} {c : P γ}
    (ha : Mono a) (hb : Strict b) (hc : Mono c) : Strict (pDelimited a b c) := by
  rintro i v r h
  obtain ⟨x, m1, m2, y, h1, h2, h3⟩ := pDelimited_eq_some.mp h
  exact Nat.lt_of_le_of_lt (hc m2 y r h3)
    (Nat.lt_of_lt_of_le (hb m1 v m2 h2) (ha i x m1 h1))

theorem mono_pSeparatedPair {p : P α} {s : P σ} {q : P β}
    (hp : Mono p) (hs : Mono s) (hq : Mono q) : Mono (pSeparatedPair p s q) := by
  rintro i ⟨a, b⟩ r h
  obtain ⟨m1, x, m2, h1, h2, h3⟩ := pSeparatedPair_eq_some.mp h
  exact Nat.le_trans (hq m2 b r h3) (Nat.le_trans (hs m1 x m2 h2) (hp i a m1 h1))

theorem strict_pSeparatedPair_mid {p : P α} {s : P σ} {q : P β}
    (hp : Mono p) (hs : Strict s) (hq : Mono q) : Strict (pSeparatedPair p s q) := by
  rintro i ⟨a, b⟩ r h
  obtain ⟨m1, x, m2, h1, h2, h3⟩ := pSeparatedPair_eq_some.mp h
  exact Nat.lt_of_le_of_lt (hq m2 b r h3)
    (Nat.lt_of_lt_of_le (hs m1 x m2 h2) (hp i a m1 h1))

theorem mono_pRecognize {p : P α} (hp : Mono p) : Mono (pRecognize p) := by
  intro i o r h
  obtain ⟨a, ha, -⟩ := pRecognize_eq_some.mp h
  exact hp i a r ha

theorem strict_pRecognize {p : P α} (hp : Strict p) : Strict (pRecognize p) := by
  intro i o r h
  obtain ⟨a, ha, -⟩ := pRecognize_eq_some.mp h
  exact hp i a r ha

theorem mono_pNot {p : P α} : Mono (pNot p) := by
  intro i u r h
  obtain ⟨-, hx⟩ := pNot_eq_some.mp h
  injection hx with h1 h2
  rw [h2]

theorem mono_many0Go {p : P α} (_hp : Mono p) (fuel : Nat) : Mono (many0Go p fuel) := by
  induction fuel with
  | zero => intro i l r h; exact Option.noConfusion h
  | succ f ih =>
    intro i l r h
    unfold many0Go at h
    split at h
    · injection h with h
      injection h with h1 h2
      subst h2
      exact Nat.le_refl _
    · next a m hm =>
      split at h
      · next hlt =>
        split at h
        · next tl r2 hg =>
          injection h with h
          injection h with h1 h2
          subst h2
          exact Nat.le_trans (ih _ _ _ hg) (Nat.le_of_lt hlt)
        · exact Option.noConfusion h
      · exact Option.noConfusion h

theorem mono_pMany0 {p : P α} (hp : Mono p) : Mono (pMany0 p) := by
  intro i l r h
  exact mono_many0Go hp (i.length + 1) i l r h

theorem mono_pMany1 {p : P α} (hp : Mono p) : Mono (pMany1 p) := by
  intro i l r h
  obtain ⟨a, m, tl, h1, h2, -⟩ := pMany1_eq_some.mp h
  exact Nat.le_trans (mono_many0Go hp _ m tl r h2) (hp i a m h1)

theorem strict_pMany1 {p : P α} (hp : Strict p) : Strict (pMany1 p) := by
  intro i l r h
  obtain ⟨a, m, tl, h1, h2, -⟩ := pMany1_eq_some.mp h
  exact Nat.lt_of_le_of_lt (mono_many0Go (mono_of_strict hp) _ m tl r h2) (hp i a m h1)

theorem mono_sepListGo {s : P σ} {p : P α} (hp : Mono p) (fuel : Nat) :
    Mono (sepListGo s p fuel) := by
  induction fuel with
  | zero => intro i l r h; exact Option.noConfusion h
  | succ f ih =>
    intro i l r h
    unfold sepListGo at h
    split at h
    · injection h with h
      injection h with h1 h2
      subst h2
      exact Nat.le_refl _
    · next x m1 hs =>
      split at h
      · next hlt =>
        split at h
        · injection h with h
          injection h with h1 h2
          subst h2
          exact Nat.le_refl _
        · next a m2 hitem =>
          split at h
          · next tl r3 hg =>
            injection h with h
            injection h with h1 h2
            subst h2
            exact Nat.le_trans (ih _ _ _ hg)
              (Nat.le_trans (hp _ _ _ hitem) (Nat.le_of_lt hlt))
          · exact Option.noConfusion h
      · exact Option.noConfusion h

theorem mono_pSepList0 {s : P σ} {p : P α} (hp : Mono p) : Mono (pSepList0 s p) := by
  intro i l r h
  rcases pSepList0_eq_some.mp h with ⟨-, -, rfl⟩ | ⟨a, m, tl, h1, h2, -⟩
  · exact Nat.le_refl _
  · exact Nat.le_trans (mono_sepListGo hp _ m tl r h2) (hp i a m h1)

/-!
## Monotonicity and strictness of the grammar rules
-/

theorem mono_sp : Mono sp := mono_withNonEmpty mono_pTakeWhile

theorem mono_trimmed {f : P α} (hf : Mono f) : Mono (trimmed f) :=
  mono_pDelimited (mono_pOpt mono_sp) hf (mono_pOpt mono_sp)

theorem strict_trimmed {f : P α} (hf : Strict f) : Strict (trimmed f) :=
  strict_pDelimited_mid (mono_pOpt mono_sp) hf (mono_pOpt mono_sp)

theorem mono_cmt : Mono cmt :=
  mono_withNonEmpty (mono_trimmed (mono_pDelimited mono_pTag
    (mono_pRecognize (mono_pMany0 (mono_pAlt mono_pIsNot
      (mono_pTerminated mono_pTag mono_pNot))))
    mono_pTag))

theorem mono_trim_cmt {f : P α} (hf : Mono f) : Mono (trim_cmt f) :=
  mono_pDelimited (mono_pOpt mono_cmt) hf (mono_pOpt mono_cmt)

theorem strict_trim_cmt {f : P α} (hf : Strict f) : Strict (trim_cmt f) :=
  strict_pDelimited_mid (mono_pOpt mono_cmt) hf (mono_pOpt mono_cmt)

theorem mono_ident : Mono ident :=
  mono_pRecognize (mono_pPreceded
    (mono_pAlt mono_pTag (mono_pAlt mono_pTag (mono_pAlt mono_pAlpha1 mono_pTakeWhile1)))
    (mono_pMany0 (mono_pAlt mono_pTag (mono_pAlt mono_pTag
      (mono_pAlt mono_pAlphanumeric1 mono_pTakeWhile1)))))

theorem mono_style_attr_key : Mono style_attr_key :=
  mono_trimmed (mono_trim_cmt (mono_trimmed mono_ident))

theorem mono_interpolationP : Mono interpolationP :=
  mono_withNonEmpty (mono_trimmed (mono_pDelimited mono_pTag
    (mono_trimmed (mono_pRecognize (mono_pPreceded mono_pAlpha1
      (mono_pMany0 (mono_pAlt mono_pAlphanumeric1 mono_pTag)))))
    mono_pTag))

theorem mono_stringP : Mono stringP :=
  mono_withNonEmpty (mono_trimmed (mono_pRecognize (mono_pPreceded mono_pTag
    (mono_pTerminated
      (mono_pMany0 (mono_pAlt mono_pIsNot (mono_pRecognize
        (mono_pPreceded mono_pTag mono_pAnyChar))))
      mono_pTag))))

theorem mono_style_attr_value : Mono style_attr_value :=
  mono_trimmed (mono_trim_cmt (mono_trimmed (mono_pMap
    (mono_pRecognize (mono_pMany1 (mono_pAlt mono_pIsNot
      (mono_pAlt (mono_pRecognize mono_interpolationP) mono_stringP)))))))

theorem strict_dangling_attribute : Strict dangling_attribute :=
  strict_withNonEmpty (strict_trimmed (strict_pMap
    (strict_pSeparatedPair_mid mono_style_attr_key (strict_pTag (by simp))
      (mono_pTerminated mono_style_attr_value mono_pTag))))

theorem mono_attributeP : Mono attributeP :=
  mono_withNonEmpty (mono_trimmed (mono_pMap
    (mono_pSeparatedPair mono_style_attr_key mono_pTag mono_style_attr_value)))

theorem mono_attributes : Mono attributes :=
  mono_withNonEmpty (mono_trimmed (mono_pTerminated
    (mono_pSepList0 mono_attributeP)
    (mono_pPreceded (mono_pOpt mono_sp) (mono_pOpt mono_pTag))))

theorem mono_selectorP : Mono selectorP :=
  mono_withNonEmpty (mono_trimmed (mono_pMap
    (mono_pRecognize (mono_pMany1 (mono_pAlt
      (mono_pRecognize (mono_pPreceded mono_pNoneOf (mono_pOpt mono_pIsNot)))
      (mono_pAlt mono_stringP (mono_pRecognize mono_interpolationP)))))))

theorem mono_conditionP : Mono conditionP :=
  mono_withNonEmpty (mono_trimmed (mono_pMany1
    (mono_pTerminated mono_selectorP (mono_pOpt mono_pTag))))

theorem strict_block : Strict block :=
  strict_withNonEmpty (strict_trimmed (strict_pMap
    (strict_pSeparatedPair_mid mono_conditionP (strict_pTag (by simp))
      (mono_pTerminated (mono_trim_cmt mono_attributes) mono_pTag))))

theorem strict_dangling_block : Strict dangling_block :=
  strict_withNonEmpty (strict_trimmed (strict_pMap
    (strict_withNonEmpty (strict_trimmed (strict_pMany1 strict_dangling_attribute)))))

theorem mono_rule_string : Mono rule_string :=
  mono_withNonEmpty (mono_trimmed (mono_pMap mono_pIsNot))

theorem mono_rule_contents (fuel : Nat) : Mono (rule_contents fuel) := by
  induction fuel with
  | zero => intro i l r h; exact Option.noConfusion h
  | succ f ih =>
    exact mono_withNonEmpty (mono_pMap (mono_pMany0 (mono_pAlt
      (mono_withNonEmpty (mono_trimmed (mono_pMap
        (mono_pDelimited mono_pTag ih mono_pTag))))
      (mono_pMap mono_rule_string))))

theorem strict_ruleP (fuel : Nat) : Strict (ruleP fuel) :=
  strict_withNonEmpty (strict_trimmed (strict_pMapRes
    (strict_pSeparatedPair_mid
      (mono_pRecognize (mono_pPreceded mono_pTag mono_pIsNot))
      (strict_pTag (by simp))
      (mono_pTerminated (mono_pTerminated (mono_rule_contents fuel) (mono_pOpt mono_sp))
        mono_pTag))))

theorem mono_at_rule_condition : Mono at_rule_condition :=
  mono_withNonEmpty (mono_trimmed (mono_pMap (mono_pPair
    (mono_pAlt mono_pTag mono_pTag)
    (mono_pMap (mono_pRecognize (mono_pMany1 (mono_pAlt mono_pIsNot
      (mono_pRecognize mono_interpolationP))))))))

theorem strict_at_ruleW {inner : P (List ScopeContent)} (hi : Mono inner) :
    Strict (at_ruleW inner) :=
  strict_withNonEmpty (strict_trimmed (strict_pMap
    (strict_pSeparatedPair_mid mono_at_rule_condition (strict_pTag (by simp))
      (mono_pTerminated hi mono_pTag))))

theorem mono_scope_contents (fuel : Nat) : Mono (scope_contents fuel) := by
  induction fuel with
  | zero => intro i l r h; exact Option.noConfusion h
  | succ f ih =>
    exact mono_withNonEmpty (mono_trimmed (mono_pMany0 (mono_pAlt
      (mono_of_strict strict_dangling_block)
      (mono_pAlt (mono_of_strict strict_block)
        (mono_pAlt (mono_of_strict (strict_at_ruleW ih))
          (mono_of_strict (strict_ruleP f)))))))

/-- The four alternatives of `scope_contents` each consume on success. -/
theorem strict_scopeAlt (fuel : Nat) :
    Strict (pAlt dangling_block (pAlt block
      (pAlt (at_ruleW (scope_contents fuel)) (ruleP fuel)))) :=
  strict_pAlt strict_dangling_block (strict_pAlt strict_block
    (strict_pAlt (strict_at_ruleW (mono_scope_contents fuel)) (strict_ruleP fuel)))

/-!
## Loop lemmas
-/

theorem many0Go_last {p : P α} :
    ∀ {fuel : Nat} {i : Input} {l : List α} {r : Input},
      many0Go p fuel i = some (l, r) → p r = none := by
  intro fuel
  induction fuel with
  | zero => intro i l r h; exact Option.noConfusion h
  | succ f ih =>
    intro i l r h
    unfold many0Go at h
    split at h
    · next hp =>
      injection h with h
      injection h with h1 h2
      subst h2
      exact hp
    · next a m hm =>
      split at h
      · split at h
        · next tl r2 hg =>
          injection h with h
          injection h with h1 h2
          subst h2
          exact ih hg
        · exact Option.noConfusion h
      · exact Option.noConfusion h

theorem many0Go_all {p : P α} {Q : α → Prop}
    (hq : ∀ i a r, p i = some (a, r) → Q a) :
    ∀ {fuel : Nat} {i : Input} {l : List α} {r : Input},
      many0Go p fuel i = some (l, r) → ∀ a ∈ l, Q a := by
  intro fuel
  induction fuel with
  | zero => intro i l r h; exact Option.noConfusion h
  | succ f ih =>
    intro i l r h
    unfold many0Go at h
    split at h
    · injection h with h
      injection h with h1 h2
      subst h1
      intro a ha
      exact absurd ha (List.not_mem_nil a)
    · next a m hm =>
      split at h
      · split at h
        · next tl r2 hg =>
          injection h with h
          injection h with h1 h2
          subst h1
          intro x hx
          rcases List.mem_cons.mp hx with rfl | hx
          · exact hq _ _ _ hm
          · exact ih hg x hx
        · exact Option.noConfusion h
      · exact Option.noConfusion h

theorem sepListGo_all {s : P σ} {p : P α} {Q : α → Prop}
    (hq : ∀ i a r, p i = some (a, r) → Q a) :
    ∀ {fuel : Nat} {i : Input} {l : List α} {r : Input},
      sepListGo s p fuel i = some (l, r) → ∀ a ∈ l, Q a := by
  intro fuel
  induction fuel with
  | zero => intro i l r h; exact Option.noConfusion h
  | succ f ih =>
    intro i l r h
    unfold sepListGo at h
    split at h
    · injection h with h
      injection h with h1 h2
      subst h1
      intro a ha
      exact absurd ha (List.not_mem_nil a)
    · next x m1 hs =>
      split at h
      · split at h
        · injection h with h
          injection h with h1 h2
          subst h1
          intro a ha
          exact absurd ha (List.not_mem_nil a)
        · next a m2 hitem =>
          split at h
          · next tl r3 hg =>
            injection h with h
            injection h with h1 h2
            subst h1
            intro y hy
            rcases List.mem_cons.mp hy with rfl | hy
            · exact hq _ _ _ hitem
            · exact ih hg y hy
          · exact Option.noConfusion h
      · exact Option.noConfusion h

theorem many0Go_some {p : P α} (hp : Strict p) :
    ∀ (fuel : Nat) (i : Input), i.length < fuel →
      ∃ l r, many0Go p fuel i = some (l, r) := by
  intro fuel
  induction fuel with
  | zero => intro i h; omega
  | succ f ih =>
    intro i h
    unfold many0Go
    rcases hpi : p i with _ | ⟨a, m⟩
    · exact ⟨[], i, rfl⟩
    · have hm : m.length < i.length := hp _ _ _ hpi
      obtain ⟨l, r, hg⟩ := ih m (by omega)
      refine ⟨a :: l, r, ?_⟩
      simp [if_pos hm, hg]

/-!
## Total consumption (claim C2)
-/

theorem pOptSp_run (i : Input) :
    ∃ o, pOpt sp i = some (o, i.dropWhile (fun c => spChars.contains c)) := by
  cases i with
  | nil => exact ⟨none, rfl⟩
  | cons c t => exact ⟨some ((c :: t).takeWhile (fun c => spChars.contains c)), rfl⟩

theorem pOptSp_rest {i : Input} {o : Option Input} {r : Input}
    (h : pOpt sp i = some (o, r)) :
    r = i.dropWhile (fun c => spChars.contains c) := by
  obtain ⟨o2, h2⟩ := pOptSp_run i
  rw [h2] at h
  injection h with h
  injection h with h1 h2
  exact h2.symm

theorem scope_contents_total (f : Nat) (i1 : Input) (h : i1 ≠ []) :
    ∃ l r, scope_contents (f + 1) i1 = some (l, r) := by
  obtain ⟨o1, h1⟩ := pOptSp_run i1
  obtain ⟨l, r, h2⟩ := many0Go_some (strict_scopeAlt f)
    ((i1.dropWhile (fun c => spChars.contains c)).length + 1)
    (i1.dropWhile (fun c => spChars.contains c)) (Nat.lt_succ_self _)
  obtain ⟨o2, h3⟩ := pOptSp_run r
  refine ⟨l, r.dropWhile (fun c => spChars.contains c), ?_⟩
  simp only [scope_contents]
  rw [withNonEmpty_eq_some]
  refine ⟨h, ?_⟩
  unfold trimmed
  exact pDelimited_eq_some.mpr ⟨o1, _, _, o2, h1, h2, h3⟩

theorem scope_isSome (f : Nat) (i : Input)
    (h : i.dropWhile (fun c => spChars.contains c) ≠ []) :
    scope (f + 1) i ≠ none := by
  have hne : i ≠ [] := by
    intro he
    subst he
    exact h rfl
  obtain ⟨o1, h1⟩ := pOptSp_run i
  obtain ⟨l, r, h2⟩ := scope_contents_total f _ h
  obtain ⟨o2, h3⟩ := pOptSp_run r
  have : scope (f + 1) i = some (l, r.dropWhile (fun c => spChars.contains c)) := by
    unfold scope
    rw [withNonEmpty_eq_some]
    refine ⟨hne, ?_⟩
    unfold trimmed
    exact pDelimited_eq_some.mpr ⟨o1, _, _, o2, h1, h2, h3⟩
  rw [this]
  exact Option.noConfusion

theorem sheetP_rest_nil {fuel : Nat} (hf : 0 < fuel) {i : Input} {sh : Sheet} {r : Input}
    (h : sheetP fuel i = some (sh, r)) : r = [] := by
  obtain ⟨f, rfl⟩ : ∃ f, fuel = f + 1 := ⟨fuel - 1, by omega⟩
  unfold sheetP trimmed at h
  obtain ⟨o1, m1, m2, o2, h1, h2, h3⟩ := pDelimited_eq_some.mp h
  obtain ⟨l, hl, -⟩ := pMap_eq_some.mp h2
  have hlast : scope (f + 1) m2 = none := many0Go_last (pMany0_eq ▸ hl)
  have hm2 : m2.dropWhile (fun c => spChars.contains c) = [] := by
    by_contra hne
    exact scope_isSome f m2 hne hlast
  rw [pOptSp_rest h3, hm2]

/-!
## Single-fragment invariants (claim C10)
-/

theorem selectorP_shape {i : Input} {sel : Selector} {r : Input}
    (h : selectorP i = some (sel, r)) : ∃ m, sel = (⟨[mkFragment m]⟩ : Selector) := by
  unfold selectorP at h
  obtain ⟨-, h⟩ := withNonEmpty_eq_some.mp h
  unfold trimmed at h
  obtain ⟨o1, m1, m2, o2, -, h, -⟩ := pDelimited_eq_some.mp h
  obtain ⟨a, -, rfl⟩ := pMap_eq_some.mp h
  exact ⟨a, rfl⟩

theorem style_attr_value_shape {i : Input} {v : StringFragment} {r : Input}
    (h : style_attr_value i = some (v, r)) : ∃ m, v = mkFragment m := by
  unfold style_attr_value at h
  unfold trimmed trim_cmt at h
  obtain ⟨o1, m1, m2, o2, -, h, -⟩ := pDelimited_eq_some.mp h
  obtain ⟨o3, m3, m4, o4, -, h, -⟩ := pDelimited_eq_some.mp h
  obtain ⟨o5, m5, m6, o6, -, h, -⟩ := pDelimited_eq_some.mp h
  obtain ⟨a, -, rfl⟩ := pMap_eq_some.mp h
  exact ⟨a, rfl⟩

theorem dangling_attribute_shape {i : Input} {a : StyleAttribute} {r : Input}
    (h : dangling_attribute i = some (a, r)) : a.value.length = 1 := by
  unfold dangling_attribute at h
  obtain ⟨-, h⟩ := withNonEmpty_eq_some.mp h
  unfold trimmed at h
  obtain ⟨o1, m1, m2, o2, -, h, -⟩ := pDelimited_eq_some.mp h
  obtain ⟨⟨k, v⟩, -, rfl⟩ := pMap_eq_some.mp h
  rfl

theorem attributeP_shape {i : Input} {a : StyleAttribute} {r : Input}
    (h : attributeP i = some (a, r)) : a.value.length = 1 := by
  unfold attributeP at h
  obtain ⟨-, h⟩ := withNonEmpty_eq_some.mp h
  unfold trimmed at h
  obtain ⟨o1, m1, m2, o2, -, h, -⟩ := pDelimited_eq_some.mp h
  obtain ⟨⟨k, v⟩, -, rfl⟩ := pMap_eq_some.mp h
  rfl

theorem conditionP_all {i : Input} {sels : List Selector} {r : Input}
    (h : conditionP i = some (sels, r)) :
    ∀ sel ∈ sels, ∃ m, sel = (⟨[mkFragment m]⟩ : Selector) := by
  have hitem : ∀ j sel rj, pTerminated selectorP (pOpt (pTag [','])) j = some (sel, rj) →
      ∃ m, sel = (⟨[mkFragment m]⟩ : Selector) := by
    intro j sel rj hj
    obtain ⟨mm, b, hsel, -⟩ := pTerminated_eq_some.mp hj
    exact selectorP_shape hsel
  unfold conditionP at h
  obtain ⟨-, h⟩ := withNonEmpty_eq_some.mp h
  unfold trimmed at h
  obtain ⟨o1, m1, m2, o2, -, h, -⟩ := pDelimited_eq_some.mp h
  obtain ⟨a, m, tl, h1, h2, rfl⟩ := pMany1_eq_some.mp h
  intro sel hsel
  rcases List.mem_cons.mp hsel with rfl | hsel
  · exact hitem _ _ _ h1
  · exact many0Go_all hitem h2 sel hsel

theorem attributes_all {i : Input} {l : List StyleAttribute} {r : Input}
    (h : attributes i = some (l, r)) : ∀ a ∈ l, a.value.length = 1 := by
  have hitem : ∀ j a rj, attributeP j = some (a, rj) → a.value.length = 1 :=
    fun j a rj hj => attributeP_shape hj
  unfold attributes at h
  obtain ⟨-, h⟩ := withNonEmpty_eq_some.mp h
  unfold trimmed at h
  obtain ⟨o1, m1, m2, o2, -, h, -⟩ := pDelimited_eq_some.mp h
  obtain ⟨m, b, h1, -⟩ := pTerminated_eq_some.mp h
  rcases pSepList0_eq_some.mp h1 with ⟨-, rfl, -⟩ | ⟨a, mi, tl, h2, h3, rfl⟩
  · intro a ha
    exact absurd ha (List.not_mem_nil a)
  · intro x hx
    rcases List.mem_cons.mp hx with rfl | hx
    · exact attributeP_shape h2
    · exact sepListGo_all hitem h3 x hx

theorem block_good {i : Input} {sc : ScopeContent} {r : Input}
    (h : block i = some (sc, r)) : GoodScope sc := by
  unfold block at h
  obtain ⟨-, h⟩ := withNonEmpty_eq_some.mp h
  unfold trimmed at h
  obtain ⟨o1, m1, m2, o2, -, h, -⟩ := pDelimited_eq_some.mp h
  obtain ⟨⟨sels, attrs⟩, hp, rfl⟩ := pMap_eq_some.mp h
  obtain ⟨n1, x, n2, hc, -, hq⟩ := pSeparatedPair_eq_some.mp hp
  obtain ⟨k1, b1, hq2, -⟩ := pTerminated_eq_some.mp hq
  unfold trim_cmt at hq2
  obtain ⟨o3, m3, m4, o4, -, hq3, -⟩ := pDelimited_eq_some.mp hq2
  constructor
  · intro sel hsel
    obtain ⟨m, rfl⟩ := conditionP_all hc sel hsel
    rfl
  · exact attributes_all hq3

theorem dangling_block_good {i : Input} {sc : ScopeContent} {r : Input}
    (h : dangling_block i = some (sc, r)) : GoodScope sc := by
  unfold dangling_block at h
  obtain ⟨-, h⟩ := withNonEmpty_eq_some.mp h
  unfold trimmed at h
  obtain ⟨o1, m1, m2, o2, -, h, -⟩ := pDelimited_eq_some.mp h
  obtain ⟨attrs, hp, rfl⟩ := pMap_eq_some.mp h
  unfold dangling_attributes at hp
  obtain ⟨-, hp⟩ := withNonEmpty_eq_some.mp hp
  unfold trimmed at hp
  obtain ⟨o3, m3, m4, o4, -, hp2, -⟩ := pDelimited_eq_some.mp hp
  obtain ⟨a, m, tl, h1, h2, rfl⟩ := pMany1_eq_some.mp hp2
  constructor
  · intro sel hsel
    exact absurd hsel (List.not_mem_nil sel)
  · intro x hx
    rcases List.mem_cons.mp hx with rfl | hx
    · exact dangling_attribute_shape h1
    · exact many0Go_all (fun j a rj hj => dangling_attribute_shape hj) h2 x hx

theorem rule_contents_str : ∀ (fuel : Nat) {i : Input} {l : List RuleContent} {r : Input},
    rule_contents fuel i = some (l, r) → ∀ c ∈ l, ∃ s0, c = RuleContent.str s0 := by
  intro fuel
  induction fuel with
  | zero => intro i l r h; exact Option.noConfusion h
  | succ f ih =>
    intro i l r h
    simp only [rule_contents] at h
    obtain ⟨-, h⟩ := withNonEmpty_eq_some.mp h
    obtain ⟨ls, hls, rfl⟩ := pMap_eq_some.mp h
    intro c hc
    rw [List.mem_flatten] at hc
    obtain ⟨sub, hsub, hcsub⟩ := hc
    have hQ : ∀ j sub rj,
        pAlt (rule_curly_bracesW (rule_contents f)) (pMap (fun s0 => [s0]) rule_string) j
          = some (sub, rj) → ∀ c ∈ sub, ∃ s0, c = RuleContent.str s0 := by
      intro j sub rj hj
      rcases pAlt_eq_some.mp hj with hcur | ⟨-, hstr⟩
      · unfold rule_curly_bracesW at hcur
        obtain ⟨-, hcur⟩ := withNonEmpty_eq_some.mp hcur
        unfold trimmed at hcur
        obtain ⟨o1, m1, m2, o2, -, hcur, -⟩ := pDelimited_eq_some.mp hcur
        obtain ⟨inner, hin, rfl⟩ := pMap_eq_some.mp hcur
        obtain ⟨x, n1, n2, y, -, hin2, -⟩ := pDelimited_eq_some.mp hin
        intro c hc2
        rcases List.mem_append.mp hc2 with hc2 | hc2
        · rcases List.mem_cons.mp hc2 with rfl | hc2
          · exact ⟨_, rfl⟩
          · exact ih hin2 c hc2
        · rw [List.mem_singleton] at hc2
          subst hc2
          exact ⟨_, rfl⟩
      · obtain ⟨s1, hs1, rfl⟩ := pMap_eq_some.mp hstr
        intro c hc2
        rw [List.mem_singleton] at hc2
        subst hc2
        unfold rule_string at hs1
        obtain ⟨-, hs1⟩ := withNonEmpty_eq_some.mp hs1
        unfold trimmed at hs1
        obtain ⟨o1, m1, m2, o2, -, hs1, -⟩ := pDelimited_eq_some.mp hs1
        obtain ⟨t, -, rfl⟩ := pMap_eq_some.mp hs1
        exact ⟨_, rfl⟩
    exact many0Go_all hQ hls sub hsub c hcsub

theorem GoodRCList_iff {l : List RuleContent} : GoodRCList l ↔ ∀ c ∈ l, GoodRC c := by
  induction l with
  | nil => simp [GoodRCList]
  | cons c t ih => simp [GoodRCList, ih]

theorem ruleP_good {fuel : Nat} {i : Input} {sc : ScopeContent} {r : Input}
    (h : ruleP fuel i = some (sc, r)) : GoodScope sc := by
  unfold ruleP at h
  obtain ⟨-, h⟩ := withNonEmpty_eq_some.mp h
  unfold trimmed at h
  obtain ⟨o1, m1, m2, o2, -, h, -⟩ := pDelimited_eq_some.mp h
  obtain ⟨⟨name, content⟩, hp, hf⟩ := pMapRes_eq_some.mp h
  split at hf
  · exact Option.noConfusion hf
  split at hf
  · exact Option.noConfusion hf
  injection hf with hf
  subst hf
  obtain ⟨n1, x, n2, -, -, hq⟩ := pSeparatedPair_eq_some.mp hp
  obtain ⟨k1, b1, hq2, -⟩ := pTerminated_eq_some.mp hq
  obtain ⟨k2, b2, hq3, -⟩ := pTerminated_eq_some.mp hq2
  show GoodRCList content
  rw [GoodRCList_iff]
  intro c hc
  obtain ⟨s0, rfl⟩ := rule_contents_str fuel hq3 c hc
  trivial

theorem toRuleContent_good {sc : ScopeContent} (h : GoodScope sc) :
    GoodRC sc.toRuleContent := by
  cases sc with
  | block b => exact h
  | rule ru => exact h

theorem at_ruleW_good {inner : P (List ScopeContent)}
    (hinner : ∀ i l r, inner i = some (l, r) → ∀ sc ∈ l, GoodScope sc)
    {i : Input} {sc : ScopeContent} {r : Input}
    (h : at_ruleW inner i = some (sc, r)) : GoodScope sc := by
  unfold at_ruleW at h
  obtain ⟨-, h⟩ := withNonEmpty_eq_some.mp h
  unfold trimmed at h
  obtain ⟨o1, m1, m2, o2, -, h, -⟩ := pDelimited_eq_some.mp h
  obtain ⟨⟨cond, scs⟩, hp, rfl⟩ := pMap_eq_some.mp h
  obtain ⟨n1, x, n2, -, -, hq⟩ := pSeparatedPair_eq_some.mp hp
  obtain ⟨k1, b1, hq2, -⟩ := pTerminated_eq_some.mp hq
  show GoodRCList (scs.map ScopeContent.toRuleContent)
  rw [GoodRCList_iff]
  intro c hc
  rw [List.mem_map] at hc
  obtain ⟨sc2, hsc2, rfl⟩ := hc
  exact toRuleContent_good (hinner _ _ _ hq2 sc2 hsc2)

theorem scope_contents_good : ∀ (fuel : Nat) {i : Input} {l : List ScopeContent} {r : Input},
    scope_contents fuel i = some (l, r) → ∀ sc ∈ l, GoodScope sc := by
  intro fuel
  induction fuel with
  | zero => intro i l r h; exact Option.noConfusion h
  | succ f ih =>
    intro i l r h
    simp only [scope_contents] at h
    obtain ⟨-, h⟩ := withNonEmpty_eq_some.mp h
    unfold trimmed at h
    obtain ⟨o1, m1, m2, o2, -, h, -⟩ := pDelimited_eq_some.mp h
    have hQ : ∀ j sc rj,
        pAlt dangling_block (pAlt block
          (pAlt (at_ruleW (scope_contents f)) (ruleP f))) j = some (sc, rj) →
        GoodScope sc := by
      intro j sc rj hj
      rcases pAlt_eq_some.mp hj with h1 | ⟨-, hj⟩
      · exact dangling_block_good h1
      rcases pAlt_eq_some.mp hj with h1 | ⟨-, hj⟩
      · exact block_good h1
      rcases pAlt_eq_some.mp hj with h1 | ⟨-, hj⟩
      · exact at_ruleW_good (fun a b c hd => ih hd) h1
      · exact ruleP_good hj
    exact many0Go_all hQ h

theorem sheetP_good {fuel : Nat} {i : Input} {sh : Sheet} {r : Input}
    (h : sheetP fuel i = some (sh, r)) : GoodSheet sh := by
  unfold sheetP trimmed at h
  obtain ⟨o1, m1, m2, o2, -, h, -⟩ := pDelimited_eq_some.mp h
  obtain ⟨ls, hls, rfl⟩ := pMap_eq_some.mp h
  intro sc hsc
  rw [List.mem_flatten] at hsc
  obtain ⟨sub, hsub, hcsub⟩ := hsc
  have hQ : ∀ j sub rj, scope fuel j = some (sub, rj) → ∀ sc ∈ sub, GoodScope sc := by
    intro j sub rj hj
    unfold scope at hj
    obtain ⟨-, hj⟩ := withNonEmpty_eq_some.mp hj
    unfold trimmed at hj
    obtain ⟨o3, m3, m4, o4, -, hj2, -⟩ := pDelimited_eq_some.mp hj
    exact scope_contents_good fuel hj2
  exact many0Go_all hQ hls sub hsub sc hcsub

/-!
## Interpolation names (claim C5)
-/

theorem alpha_isAlphanum {c : Char} (h : c.isAlpha = true) : c.isAlphanum = true := by
  simp [Char.isAlphanum, h]

theorem good_not_ws {c : Char} (h : c.isAlphanum = true ∨ c = '_') :
    spChars.contains c = false := by
  cases hcb : spChars.contains c
  · rfl
  · exfalso
    have hmem : c ∈ ([' ', '\t', '\r', '\n'] : List Char) := by
      simpa [spChars] using hcb
    fin_cases hmem <;> revert h <;> decide

theorem rest_takeWhile_alnum {rest : Input}
    (hrest : ∀ c, rest.head? = some c → c.isAlphanum = false ∧ c ≠ '_') :
    rest.takeWhile Char.isAlphanum = [] := by
  cases rest with
  | nil => rfl
  | cons c t =>
    have := hrest c rfl
    simp [List.takeWhile_cons, this.1]

theorem rest_dropWhile_alnum {rest : Input}
    (hrest : ∀ c, rest.head? = some c → c.isAlphanum = false ∧ c ≠ '_') :
    rest.dropWhile Char.isAlphanum = rest := by
  cases rest with
  | nil => rfl
  | cons c t =>
    have := hrest c rfl
    simp [List.dropWhile_cons, this.1]

theorem dropWhile_append_of_fixed {p : Char → Bool} {l1 l2 : Input}
    (h2 : l2.dropWhile p = l2) : (l1 ++ l2).dropWhile p = l1.dropWhile p ++ l2 := by
  rw [List.dropWhile_append]
  rcases hz : l1.dropWhile p with _ | ⟨z, zs⟩
  · simp [h2]
  · simp

/-- The identifier continuation loop of `Parser::interpolation` consumes
exactly a run of ASCII alphanumerics and underscores. -/
theorem nameLoop_consumes : ∀ (fuel : Nat) (xs rest : Input),
    xs.length < fuel → (∀ c ∈ xs, c.isAlphanum = true ∨ c = '_') →
    (∀ c, rest.head? = some c → c.isAlphanum = false ∧ c ≠ '_') →
    ∃ os, many0Go (pAlt pAlphanumeric1 (pTag ['_'])) fuel (xs ++ rest) = some (os, rest) := by
  intro fuel
  induction fuel with
  | zero => intro xs rest h _ _; omega
  | succ f ih =>
    intro xs rest hlen hxs hrest
    cases xs with
    | nil =>
      refine ⟨[], ?_⟩
      have h1 : pAlphanumeric1 rest = none := by
        unfold pAlphanumeric1 pTakeWhile1
        rw [rest_takeWhile_alnum hrest]
      have h2 : pTag ['_'] rest = none := by
        rcases ht : pTag ['_'] rest with _ | ⟨o, r2⟩
        · rfl
        · obtain ⟨-, hr⟩ := pTag_eq_some.mp ht
          have : rest.head? = some '_' := by rw [hr]; rfl
          exact absurd rfl (hrest '_' this).2
      have halt : pAlt pAlphanumeric1 (pTag ['_']) rest = none := by
        unfold pAlt
        rw [h1, h2]
      unfold many0Go
      rw [List.nil_append, halt]
    | cons x xs2 =>
      by_cases hxa : x.isAlphanum = true
      · have htw : ((x :: xs2) ++ rest).takeWhile Char.isAlphanum
            = x :: (xs2 ++ rest).takeWhile Char.isAlphanum := by
          simp [List.takeWhile_cons, hxa]
        have halnum : pAlphanumeric1 ((x :: xs2) ++ rest)
            = some (((x :: xs2) ++ rest).takeWhile Char.isAlphanum,
                    ((x :: xs2) ++ rest).dropWhile Char.isAlphanum) := by
          unfold pAlphanumeric1 pTakeWhile1
          rw [htw]
        have hdw : ((x :: xs2) ++ rest).dropWhile Char.isAlphanum
            = xs2.dropWhile Char.isAlphanum ++ rest := by
          rw [dropWhile_append_of_fixed (rest_dropWhile_alnum hrest)]
          simp [List.dropWhile_cons, hxa]
        have hlt : (xs2.dropWhile Char.isAlphanum ++ rest).length
            < ((x :: xs2) ++ rest).length := by
          have h1 : (xs2.dropWhile Char.isAlphanum).length ≤ xs2.length :=
            (List.dropWhile_suffix Char.isAlphanum).length_le
          simp [List.length_append]
          omega
        obtain ⟨os, hos⟩ := ih (xs2.dropWhile Char.isAlphanum) rest
          (by
            have h1 : (xs2.dropWhile Char.isAlphanum).length ≤ xs2.length :=
              (List.dropWhile_suffix Char.isAlphanum).length_le
            simp at hlen
            omega)
          (fun c hc => hxs c (List.mem_cons_of_mem x
            ((List.dropWhile_sublist Char.isAlphanum).subset hc)))
          hrest
        refine ⟨((x :: xs2) ++ rest).takeWhile Char.isAlphanum :: os, ?_⟩
        unfold many0Go
        have halt : pAlt pAlphanumeric1 (pTag ['_']) ((x :: xs2) ++ rest)
            = some (((x :: xs2) ++ rest).takeWhile Char.isAlphanum,
                    xs2.dropWhile Char.isAlphanum ++ rest) := by
          unfold pAlt
          rw [halnum, hdw]
        rw [halt]
        simp only [if_pos hlt]
        rw [hos]
      · have hx : x = '_' := by
          rcases hxs x (List.mem_cons_self x xs2) with h | h
          · exact absurd h hxa
          · exact h
        subst hx
        have h1 : pAlphanumeric1 (('_' :: xs2) ++ rest) = none := by
          unfold pAlphanumeric1 pTakeWhile1
          have : (('_' :: xs2) ++ rest).takeWhile Char.isAlphanum = [] := by
            simp [List.takeWhile_cons]
          rw [this]
        have h2 : pTag ['_'] (('_' :: xs2) ++ rest) = some (['_'], xs2 ++ rest) :=
          pTag_eq_some.mpr ⟨rfl, rfl⟩
        have halt : pAlt pAlphanumeric1 (pTag ['_']) (('_' :: xs2) ++ rest)
            = some (['_'], xs2 ++ rest) := by
          unfold pAlt
          rw [h1, h2]
        have hlt : (xs2 ++ rest).length < (('_' :: xs2) ++ rest).length := by
          simp
        obtain ⟨os, hos⟩ := ih xs2 rest
          (by simp at hlen; omega)
          (fun c hc => hxs c (List.mem_cons_of_mem '_' hc))
          hrest
        refine ⟨['_'] :: os, ?_⟩
        unfold many0Go
        rw [halt]
        simp only [if_pos hlt]
        rw [hos]

/-- A well-formed name (ASCII letter, then ASCII alphanumerics or `_`) with
surrounding whitespace is accepted by `Parser::interpolation`. -/
theorem interp_accepts (c0 : Char) (nm : Input) (h0 : c0.isAlpha = true)
    (h1 : ∀ c ∈ nm, c.isAlphanum = true ∨ c = '_') :
    interpolationP ('$' :: '{' :: ' ' :: ((c0 :: nm) ++ [' ', '}']))
      = some (c0 :: nm, []) := by
  have hc0ws : spChars.contains c0 = false := good_not_ws (Or.inl (alpha_isAlphanum h0))
  have hc0mem : c0 ∉ spChars := by simpa using hc0ws
  have hspmem : ' ' ∈ spChars := by decide
  have hsp1 : pOpt sp ('$' :: '{' :: ' ' :: ((c0 :: nm) ++ [' ', '}']))
      = some (some [], '$' :: '{' :: ' ' :: ((c0 :: nm) ++ [' ', '}'])) := rfl
  have htag1 : pTag ['$', '{'] ('$' :: '{' :: ' ' :: ((c0 :: nm) ++ [' ', '}']))
      = some (['$', '{'], ' ' :: ((c0 :: nm) ++ [' ', '}'])) := rfl
  have htkw : ((c0 :: nm) ++ [' ', '}']).takeWhile (fun c => spChars.contains c) = [] := by
    simp [List.cons_append, List.takeWhile_cons, hc0mem]
  have hdro : ((c0 :: nm) ++ [' ', '}']).dropWhile (fun c => spChars.contains c)
      = (c0 :: nm) ++ [' ', '}'] := by
    simp [List.cons_append, List.dropWhile_cons, hc0mem]
  have hsp_mid : sp (' ' :: ((c0 :: nm) ++ [' ', '}']))
      = some ([' '], (c0 :: nm) ++ [' ', '}']) := by
    unfold sp withNonEmpty pTakeWhile
    simp [List.takeWhile_cons, List.dropWhile_cons, hspmem, htkw, hdro]
    exact ⟨hc0mem, fun h => absurd h hc0mem⟩
  have hsp2 : pOpt sp (' ' :: ((c0 :: nm) ++ [' ', '}']))
      = some (some [' '], (c0 :: nm) ++ [' ', '}']) := by
    unfold pOpt
    rw [hsp_mid]
  have htwa : ((c0 :: nm) ++ [' ', '}']).takeWhile Char.isAlpha
      = c0 :: (nm ++ [' ', '}']).takeWhile Char.isAlpha := by
    simp [List.cons_append, List.takeWhile_cons, h0]
  have halpha : pAlpha1 ((c0 :: nm) ++ [' ', '}'])
      = some (((c0 :: nm) ++ [' ', '}']).takeWhile Char.isAlpha,
              ((c0 :: nm) ++ [' ', '}']).dropWhile Char.isAlpha) := by
    unfold pAlpha1 pTakeWhile1
    rw [htwa]
  have hdwa : ((c0 :: nm) ++ [' ', '}']).dropWhile Char.isAlpha
      = (c0 :: nm).dropWhile Char.isAlpha ++ [' ', '}'] :=
    dropWhile_append_of_fixed rfl
  have hxs3 : ∀ c ∈ (c0 :: nm).dropWhile Char.isAlpha, c.isAlphanum = true ∨ c = '_' := by
    intro c hc
    have hmem : c ∈ c0 :: nm := (List.dropWhile_sublist Char.isAlpha).subset hc
    rcases List.mem_cons.mp hmem with rfl | hmem
    · exact Or.inl (alpha_isAlphanum h0)
    · exact h1 c hmem
  have hrest0 : ∀ c, ([' ', '}'] : Input).head? = some c →
      c.isAlphanum = false ∧ c ≠ '_' := by
    intro c hc
    simp at hc
    subst hc
    exact ⟨by decide, by decide⟩
  obtain ⟨os, hos⟩ := nameLoop_consumes
    (((c0 :: nm).dropWhile Char.isAlpha ++ [' ', '}']).length + 1)
    ((c0 :: nm).dropWhile Char.isAlpha) [' ', '}']
    (by
      have h2 : ((c0 :: nm).dropWhile Char.isAlpha ++ [' ', '}']).length
          = ((c0 :: nm).dropWhile Char.isAlpha).length + 2 := by simp
      omega)
    hxs3 hrest0
  have hloop : pMany0 (pAlt pAlphanumeric1 (pTag ['_']))
      (((c0 :: nm) ++ [' ', '}']).dropWhile Char.isAlpha) = some (os, [' ', '}']) := by
    rw [pMany0_eq, hdwa]
    exact hos
  have hpre : pPreceded pAlpha1 (pMany0 (pAlt pAlphanumeric1 (pTag ['_'])))
      ((c0 :: nm) ++ [' ', '}']) = some (os, [' ', '}']) :=
    pPreceded_eq_some.mpr ⟨_, _, halpha, hloop⟩
  have htake : ((c0 :: nm) ++ [' ', '}']).take
      (((c0 :: nm) ++ [' ', '}']).length - ([' ', '}'] : Input).length) = c0 :: nm := by
    have hl : ((c0 :: nm) ++ [' ', '}']).length - ([' ', '}'] : Input).length
        = (c0 :: nm).length := by
      simp
    rw [hl]
    exact List.take_left _ _
  have hrec0 : pRecognize (pPreceded pAlpha1 (pMany0 (pAlt pAlphanumeric1 (pTag ['_']))))
      ((c0 :: nm) ++ [' ', '}'])
      = some (((c0 :: nm) ++ [' ', '}']).take
          (((c0 :: nm) ++ [' ', '}']).length - ([' ', '}'] : Input).length), [' ', '}']) :=
    pRecognize_eq_some.mpr ⟨os, hpre, rfl⟩
  have hrec : pRecognize (pPreceded pAlpha1 (pMany0 (pAlt pAlphanumeric1 (pTag ['_']))))
      ((c0 :: nm) ++ [' ', '}']) = some (c0 :: nm, [' ', '}']) := by
    rw [htake] at hrec0
    exact hrec0
  have hmid : trimmed (pRecognize (pPreceded pAlpha1
      (pMany0 (pAlt pAlphanumeric1 (pTag ['_'])))))
      (' ' :: ((c0 :: nm) ++ [' ', '}'])) = some (c0 :: nm, ['}']) := by
    unfold trimmed
    exact pDelimited_eq_some.mpr ⟨some [' '], _, [' ', '}'], some [' '], hsp2, hrec, rfl⟩
  have hX : pDelimited (pTag ['$', '{'])
      (trimmed (pRecognize (pPreceded pAlpha1
        (pMany0 (pAlt pAlphanumeric1 (pTag ['_']))))))
      (pTag ['}'])
      ('$' :: '{' :: ' ' :: ((c0 :: nm) ++ [' ', '}'])) = some (c0 :: nm, []) :=
    pDelimited_eq_some.mpr ⟨['$', '{'], _, ['}'], ['}'], htag1, hmid, rfl⟩
  unfold interpolationP
  rw [withNonEmpty_eq_some]
  refine ⟨by simp, ?_⟩
  unfold trimmed
  exact pDelimited_eq_some.mpr ⟨some [], _, [], none, hsp1, hX, rfl⟩

/-!
## Opaque at-rule names (claim C7)
-/

theorem hasPfx_append {pat l t : Input} (h : hasPfx pat l = true) :
    hasPfx pat (l ++ t) = true := by
  induction pat generalizing l with
  | nil =>
    rcases hlt : l ++ t with _ | ⟨c2, r2⟩ <;> rfl
  | cons c p ih =>
    cases l with
    | nil => simp [hasPfx] at h
    | cons d l2 =>
      simp [hasPfx] at h ⊢
      exact ⟨h.1, ih h.2⟩

theorem trimRight_prefix (l : Input) : ∃ t, l = trimRight l ++ t := by
  refine ⟨(l.reverse.takeWhile isWsChar).reverse, ?_⟩
  unfold trimRight
  rw [← List.reverse_append, List.takeWhile_append_dropWhile, List.reverse_reverse]

theorem hasPfx_of_trim {pat : Input} {c : Char} {t : Input}
    (hcws : isWsChar c = false)
    (h : hasPfx pat (trimChars (c :: t)) = true) : hasPfx pat (c :: t) = true := by
  have hdrop : (c :: t).dropWhile isWsChar = c :: t := by
    simp [List.dropWhile_cons, hcws]
  unfold trimChars at h
  rw [hdrop] at h
  obtain ⟨t2, ht2⟩ := trimRight_prefix (c :: t)
  rw [ht2]
  exact hasPfx_append h

theorem ruleP_shape {fuel : Nat} {i : Input} {sc : ScopeContent} {r : Input}
    (h : ruleP fuel i = some (sc, r)) :
    ∃ name content,
      sc = ScopeContent.rule (Rule.mk [⟨String.mk (trimChars name)⟩] content)
      ∧ (∃ t, name = '@' :: t)
      ∧ hasPfx ['@', 'm', 'e', 'd', 'i', 'a'] name = false
      ∧ hasPfx ['@', 's', 'u', 'p', 'p', 'o', 'r', 't', 's'] name = false := by
  unfold ruleP at h
  obtain ⟨-, h⟩ := withNonEmpty_eq_some.mp h
  unfold trimmed at h
  obtain ⟨o1, m1, m2, o2, -, h, -⟩ := pDelimited_eq_some.mp h
  obtain ⟨⟨name, content⟩, hp, hf⟩ := pMapRes_eq_some.mp h
  obtain ⟨n1, x, n2, hname, -, -⟩ := pSeparatedPair_eq_some.mp hp
  obtain ⟨a, hpre, htk⟩ := pRecognize_eq_some.mp hname
  obtain ⟨tg, mm, htag, hisnot⟩ := pPreceded_eq_some.mp hpre
  obtain ⟨-, hm1⟩ := pTag_eq_some.mp htag
  have hlen : n1.length ≤ mm.length := mono_pIsNot _ _ _ hisnot
  have hnamehead : ∃ t, name = '@' :: t := by
    rw [hm1] at htk
    refine ⟨mm.take (mm.length - n1.length), ?_⟩
    rw [htk]
    have harith : (['@'] ++ mm).length - n1.length = (mm.length - n1.length) + 1 := by
      simp
      omega
    rw [harith]
    rfl
  split at hf
  · exact Option.noConfusion hf
  next hmedia =>
  split at hf
  · exact Option.noConfusion hf
  next hsupports =>
  injection hf with hf
  subst hf
  exact ⟨name, content, rfl, hnamehead,
    Bool.not_eq_true _ ▸ hmedia, Bool.not_eq_true _ ▸ hsupports⟩

theorem at_rule_condition_shape {i : Input} {l : List StringFragment} {r : Input}
    (h : at_rule_condition i = some (l, r)) :
    ∃ pre f2,
      (pre = ['@', 's', 'u', 'p', 'p', 'o', 'r', 't', 's', ' ']
        ∨ pre = ['@', 'm', 'e', 'd', 'i', 'a', ' '])
      ∧ l = [⟨String.mk pre⟩, f2] := by
  unfold at_rule_condition at h
  obtain ⟨-, h⟩ := withNonEmpty_eq_some.mp h
  unfold trimmed at h
  obtain ⟨o1, m1, m2, o2, -, h, -⟩ := pDelimited_eq_some.mp h
  obtain ⟨⟨pre, f2⟩, hp, rfl⟩ := pMap_eq_some.mp h
  obtain ⟨mm, h1, h2⟩ := pPair_eq_some.mp hp
  rcases pAlt_eq_some.mp h1 with ht | ⟨-, ht⟩
  · obtain ⟨hpre, -⟩ := pTag_eq_some.mp ht
    exact ⟨pre, f2, Or.inl hpre, rfl⟩
  · obtain ⟨hpre, -⟩ := pTag_eq_some.mp ht
    exact ⟨pre, f2, Or.inr hpre, rfl⟩

theorem at_ruleW_shape {inner : P (List ScopeContent)} {i : Input}
    {sc : ScopeContent} {r : Input}
    (h : at_ruleW inner i = some (sc, r)) :
    ∃ pre f2 content,
      (pre = ['@', 's', 'u', 'p', 'p', 'o', 'r', 't', 's', ' ']
        ∨ pre = ['@', 'm', 'e', 'd', 'i', 'a', ' '])
      ∧ sc = ScopeContent.rule (Rule.mk [⟨String.mk pre⟩, f2] content) := by
  unfold at_ruleW at h
  obtain ⟨-, h⟩ := withNonEmpty_eq_some.mp h
  unfold trimmed at h
  obtain ⟨o1, m1, m2, o2, -, h, -⟩ := pDelimited_eq_some.mp h
  obtain ⟨⟨cond, scs⟩, hp, rfl⟩ := pMap_eq_some.mp h
  obtain ⟨n1, x, n2, hcond, -, -⟩ := pSeparatedPair_eq_some.mp hp
  obtain ⟨pre, f2, hpre, hcondeq⟩ := at_rule_condition_shape hcond
  subst hcondeq
  exact ⟨pre, f2, scs.map ScopeContent.toRuleContent, hpre, rfl⟩

/-!
## Cache behaviour (claim C3)
-/

theorem cacheLookup_mem {t : String} {c : Cache} {sh : Sheet}
    (h : cacheLookup t c = some sh) : (t, sh) ∈ c := by
  induction c with
  | nil => exact Option.noConfusion h
  | cons e rest ih =>
    obtain ⟨k, sh2⟩ := e
    unfold cacheLookup at h
    split at h
    · next hk =>
      injection h with h
      subst h
      subst hk
      exact List.mem_cons_self _ _
    · exact List.mem_cons_of_mem _ (ih h)

theorem cacheLookup_cons_ne {t k : String} {sh : Sheet} {c : Cache} (hk : k ≠ t) :
    cacheLookup t ((k, sh) :: c) = cacheLookup t c := by
  have hstep : cacheLookup t ((k, sh) :: c)
      = if k = t then some sh else cacheLookup t c := rfl
  rw [hstep, if_neg hk]

theorem cachedParse_result {c : Cache} (hc : CacheInv c) (t : String) :
    (cachedParse c t).1.1 = parse t ∧ CacheInv (cachedParse c t).1.2 := by
  unfold cachedParse
  rcases hl : cacheLookup t c with _ | sh
  · rcases hp : parse t with e | sh2
    · exact ⟨rfl, hc⟩
    · refine ⟨rfl, ?_⟩
      intro e he
      rcases List.mem_cons.mp he with rfl | he
      · exact hp
      · exact hc e he
  · have hmem := cacheLookup_mem hl
    exact ⟨(hc _ hmem).symm, hc⟩

theorem workCount_nil {t : String} : workCount t [] = 0 := rfl

theorem workCount_cons {t : String} {x : String × Except Unit Sheet × Bool}
    {log : List (String × Except Unit Sheet × Bool)} :
    workCount t (x :: log)
      = (if (x.1 == t && x.2.2) = true then 1 else 0) + workCount t log := by
  unfold workCount
  rw [List.filter_cons]
  split
  · simp [Nat.add_comm]
  · simp

theorem runCalls_work {t : String} {sh : Sheet} (hok : parse t = Except.ok sh) :
    ∀ (calls : List String) (c : Cache),
      (cacheLookup t c = none → workCount t (runCalls c calls) ≤ 1) ∧
      (∀ sh2, cacheLookup t c = some sh2 → workCount t (runCalls c calls) = 0) := by
  intro calls
  induction calls with
  | nil =>
    intro c
    exact ⟨fun _ => by rw [runCalls, workCount_nil]; omega,
      fun _ _ => by rw [runCalls, workCount_nil]⟩
  | cons t2 rest ih =>
    intro c
    by_cases ht2 : t2 = t
    · subst ht2
      constructor
      · intro hl
        show workCount t2 ((t2, (cachedParse c t2).1.1, (cachedParse c t2).2)
          :: runCalls (cachedParse c t2).1.2 rest) ≤ 1
        rw [workCount_cons]
        have hcp : cachedParse c t2 = ((Except.ok sh, (t2, sh) :: c), true) := by
          unfold cachedParse
          rw [hl, hok]
        rw [hcp]
        have htail : workCount t2 (runCalls ((t2, sh) :: c) rest) = 0 :=
          (ih ((t2, sh) :: c)).2 sh (by unfold cacheLookup; rw [if_pos rfl])
        simp [htail]
      · intro sh2 hl
        show workCount t2 ((t2, (cachedParse c t2).1.1, (cachedParse c t2).2)
          :: runCalls (cachedParse c t2).1.2 rest) = 0
        rw [workCount_cons]
        have hcp : cachedParse c t2 = ((Except.ok sh2, c), false) := by
          unfold cachedParse
          rw [hl]
        rw [hcp]
        have htail : workCount t2 (runCalls c rest) = 0 := (ih c).2 sh2 hl
        simp [htail]
    · have hhead : ((t2 : String) == t && (cachedParse c t2).2) = false := by
        have : (t2 == t) = false := by
          simp [ht2]
        simp [this]
      have hpresv : cacheLookup t (cachedParse c t2).1.2 = cacheLookup t c := by
        unfold cachedParse
        rcases hl2 : cacheLookup t2 c with _ | sh0
        · rcases hp2 : parse t2 with e | sh3
          · rfl
          · exact cacheLookup_cons_ne ht2
        · rfl
      constructor
      · intro hl
        show workCount t ((t2, (cachedParse c t2).1.1, (cachedParse c t2).2)
          :: runCalls (cachedParse c t2).1.2 rest) ≤ 1
        rw [workCount_cons, hhead]
        have := (ih (cachedParse c t2).1.2).1 (by rw [hpresv]; exact hl)
        simpa using this
      · intro sh2 hl
        show workCount t ((t2, (cachedParse c t2).1.1, (cachedParse c t2).2)
          :: runCalls (cachedParse c t2).1.2 rest) = 0
        rw [workCount_cons, hhead]
        have := (ih (cachedParse c t2).1.2).2 sh2 (by rw [hpresv]; exact hl)
        simpa using this

/-!
## Claim theorems
-/

/-- C1 (counterexample): parsing `color: ${theme_color};` yields one block
whose single attribute value is the one fragment holding the raw text
`${theme_color}` — the placeholder is kept as literal text (the AST has no
interpolation variant), not as an interpolation node named `theme_color`. -/
theorem C1_counterexample :
    parse ("color: $\x7btheme_color\x7d;" : String)
      = Except.ok ⟨[ScopeContent.block ⟨[], [⟨"color", [⟨"$\x7btheme_color\x7d"⟩]⟩]⟩]⟩
    ∧ ("$\x7btheme_color\x7d" : String) ≠ ("theme_color" : String) :=
  ⟨rfl, by decide⟩

/-- C1 (amended): parsing `color: ${theme_color};` yields one block with
empty condition whose single attribute has key `color` and whose value is
the one-element fragment sequence holding the literal text `${theme_color}`:
the placeholder survives as raw text inside a single `StringFragment`, to be
substituted downstream; fragments carry no literal/interpolation tag. -/
theorem C1_placeholder_kept_as_text :
    parse ("color: $\x7btheme_color\x7d;" : String)
      = Except.ok ⟨[ScopeContent.block
          ⟨[], [⟨"color", [⟨"$\x7btheme_color\x7d"⟩]⟩]⟩]⟩ := rfl

/-- C2: whenever `parse` returns `Ok`, the underlying sheet parser consumed
the entire input — no trailing or malformed region is silently skipped, and
any failure surfaces as the single terminal `Err` of `parse`. -/
theorem C2_no_partial_sheet (css : String) (sh : Sheet)
    (h : parse css = Except.ok sh) :
    sheetP (parseFuel css) css.data = some (sh, []) := by
  unfold parse at h
  split at h
  · exact Except.noConfusion h
  · next res rest hs =>
    injection h with h
    subst h
    have hr : rest = [] := sheetP_rest_nil (by unfold parseFuel; omega) hs
    rw [hr] at hs
    exact hs

/-- C2 witness at a concrete input. -/
theorem C2_no_partial_sheet_witness :
    parse ("color: red;" : String)
      = Except.ok ⟨[ScopeContent.block ⟨[], [⟨"color", [⟨"red"⟩]⟩]⟩]⟩
    ∧ sheetP (parseFuel ("color: red;" : String)) ("color: red;" : String).data
      = some (⟨[ScopeContent.block ⟨[], [⟨"color", [⟨"red"⟩]⟩]⟩]⟩, []) :=
  ⟨rfl, C2_no_partial_sheet _ _ rfl⟩

/-- C3 (counterexample): parse failures are not cached, so for the failing
text `}` two cache calls perform the underlying parse work twice — parse
work is not "at most once for that exact text regardless of call count". -/
theorem C3_counterexample :
    workCount ("\x7d" : String)
      (runCalls [] [("\x7d" : String), ("\x7d" : String)]) = 2
    ∧ parse ("\x7d" : String) = Except.error () :=
  ⟨rfl, rfl⟩

/-- C3 (amended): through the memoizing cache, any call on a coherent cache
returns exactly `parse t` (so byte-identical texts yield structurally equal
sheets), and for every text whose parse succeeds the underlying parse work
runs at most once over any sequence of calls from an empty cache; failing
texts are retried on every call (failures are not cached). -/
theorem C3_cache_single_flight :
    (∀ (c : Cache), CacheInv c → ∀ t, (cachedParse c t).1.1 = parse t)
    ∧ (∀ (t : String) (sh : Sheet), parse t = Except.ok sh →
        ∀ calls : List String, workCount t (runCalls [] calls) ≤ 1) := by
  constructor
  · intro c hc t
    exact (cachedParse_result hc t).1
  · intro t sh hok calls
    exact (runCalls_work hok calls []).1 rfl

/-- C3 witness at concrete inputs. -/
theorem C3_cache_single_flight_witness :
    (cachedParse [] ("color: red;" : String)).1.1 = parse ("color: red;" : String)
    ∧ parse ("color: red;" : String)
      = Except.ok ⟨[ScopeContent.block ⟨[], [⟨"color", [⟨"red"⟩]⟩]⟩]⟩
    ∧ workCount ("color: red;" : String)
        (runCalls [] [("color: red;" : String), ("color: red;" : String)]) ≤ 1 :=
  ⟨C3_cache_single_flight.1 [] (fun e he => absurd he (List.not_mem_nil e)) _,
   rfl,
   C3_cache_single_flight.2 ("color: red;" : String)
     ⟨[ScopeContent.block ⟨[], [⟨"color", [⟨"red"⟩]⟩]⟩]⟩ rfl
     [("color: red;" : String), ("color: red;" : String)]⟩

/-- C4 (counterexample): in the raw content of an opaque at-rule, a brace
inside a double-quoted string DOES count toward the balanced-brace capture:
parsing `@foo {"}"}` captures only `"` — the capture stops at the in-string
`}` and leaves `"}` unconsumed. -/
theorem C4_counterexample :
    ruleP 9 ("@foo \x7b\"\x7d\"\x7d" : String).data
      = some (ScopeContent.rule (Rule.mk [⟨"@foo"⟩] [RuleContent.str ("\"" : String)]),
              ("\"\x7d" : String).data) := rfl

/-- C4 (amended): in a selector, a quoted span containing braces does not
terminate the selector — `[placeholder="\" {}"]` parses as that single
literal; but in opaque at-rule content, quoted strings are not recognized
and braces inside them do count toward the brace capture. -/
theorem C4_quoted_selector :
    parse ("[placeholder=\"\\\" \x7b\x7d\"] \x7b width: 100px; \x7d" : String)
      = Except.ok ⟨[ScopeContent.block
          ⟨[⟨[⟨"[placeholder=\"\\\" \x7b\x7d\"]"⟩]⟩],
           [⟨"width", [⟨"100px"⟩]⟩]⟩]⟩ := rfl

/-- C5 (counterexample): `_a` is a bare identifier (accepted by
`Parser::ident`, as is the non-ASCII `é`), yet `${_a}` and `${é}` are
rejected as interpolation placeholders: not every bare identifier is
accepted as a placeholder name. -/
theorem C5_counterexample :
    ident ("_a" : String).data = some (("_a" : String).data, [])
    ∧ interpolationP ("$\x7b_a\x7d" : String).data = none
    ∧ ident ("é" : String).data = some (("é" : String).data, [])
    ∧ interpolationP ("$\x7bé\x7d" : String).data = none :=
  ⟨rfl, rfl, rfl, rfl⟩

/-- C5 (amended): an interpolation placeholder name must start with an ASCII
letter and continue with ASCII letters, digits, or `_`; any such name is
accepted, with optional whitespace between `${`, the name, and `}`. -/
theorem C5_ident_names (c0 : Char) (nm : List Char) (h0 : c0.isAlpha = true)
    (h1 : ∀ c ∈ nm, c.isAlphanum = true ∨ c = '_') :
    interpolationP ('$' :: '{' :: ' ' :: ((c0 :: nm) ++ [' ', '}']))
      = some (c0 :: nm, []) :=
  interp_accepts c0 nm h0 h1

/-- C5 witness at a concrete name. -/
theorem C5_ident_names_witness :
    interpolationP ('$' :: '{' :: ' ' :: (('t' :: ['h', 'e', 'm', 'e', '_', '1']) ++ [' ', '}']))
      = some ('t' :: ['h', 'e', 'm', 'e', '_', '1'], []) :=
  C5_ident_names 't' ['h', 'e', 'm', 'e', '_', '1'] (by decide) (by decide)

/-- C6 (counterexample): a comment before a selector is NOT discarded — it
becomes part of the selector text and changes the resulting AST. -/
theorem C6_counterexample :
    parse ("/* c */ span \x7b color: red; \x7d" : String)
      = Except.ok ⟨[ScopeContent.block
          ⟨[⟨[⟨"/* c */ span"⟩]⟩], [⟨"color", [⟨"red"⟩]⟩]⟩]⟩
    ∧ (⟨"/* c */ span"⟩ : StringFragment) ≠ ⟨"span"⟩ :=
  ⟨rfl, by decide⟩

/-- C6 (amended): whitespace is trimmed around every rule, but comments are
trimmed only around attribute keys, attribute values, and the attribute
list of a block — comments placed there are discarded and do not change the
AST; a comment before a selector is not trimmed (see the counterexample). -/
theorem C6_comment_trimming :
    parse ("span \x7b /* a */ color /* b */ : /* c */ red /* d */; \x7d" : String)
      = Except.ok ⟨[ScopeContent.block ⟨[⟨[⟨"span"⟩]⟩], [⟨"color", [⟨"red"⟩]⟩]⟩]⟩ := rfl

/-- C7: the opaque at-rule alternative never produces a rule whose captured
name (raw or stored trimmed) starts with `@media` or `@supports` — the
`map_res` rejects those — and every rule produced by the recognized at-rule
alternative carries `"@media "` or `"@supports "` as its first condition
fragment with a structurally parsed body, so at-rules with those names are
only ever handled by the recognized alternative. -/
theorem C7_opaque_never_media :
    (∀ (fuel : Nat) (i : Input) (sc : ScopeContent) (r : Input),
      ruleP fuel i = some (sc, r) →
      ∀ ru, sc = ScopeContent.rule ru →
      ∀ f0 ∈ ru.condition,
        hasPfx ['@', 'm', 'e', 'd', 'i', 'a'] f0.inner.data = false
        ∧ hasPfx ['@', 's', 'u', 'p', 'p', 'o', 'r', 't', 's'] f0.inner.data = false)
    ∧ (∀ (inner : P (List ScopeContent)) (i : Input) (sc : ScopeContent) (r : Input),
      at_ruleW inner i = some (sc, r) →
      ∃ pre f2 content,
        (pre = ['@', 's', 'u', 'p', 'p', 'o', 'r', 't', 's', ' ']
          ∨ pre = ['@', 'm', 'e', 'd', 'i', 'a', ' '])
        ∧ sc = ScopeContent.rule (Rule.mk [⟨String.mk pre⟩, f2] content)) := by
  constructor
  · intro fuel i sc r h ru hsc f0 hf0
    obtain ⟨name, content, hshape, ⟨t, hthead⟩, hm, hsup⟩ := ruleP_shape h
    rw [hsc] at hshape
    injection hshape with h2
    subst h2
    have hf0eq : f0 = (⟨String.mk (trimChars name)⟩ : StringFragment) := by
      simpa [Rule.condition] using hf0
    subst hf0eq
    subst hthead
    constructor
    · cases hb : hasPfx ['@', 'm', 'e', 'd', 'i', 'a'] (trimChars ('@' :: t))
      · rfl
      · have := hasPfx_of_trim (by decide) hb
        rw [hm] at this
        exact this.symm
    · cases hb : hasPfx ['@', 's', 'u', 'p', 'p', 'o', 'r', 't', 's'] (trimChars ('@' :: t))
      · rfl
      · have := hasPfx_of_trim (by decide) hb
        rw [hsup] at this
        exact this.symm
  · intro inner i sc r h
    exact at_ruleW_shape h

/-- C7 witness at concrete inputs. -/
theorem C7_opaque_never_media_witness :
    ruleP 9 ("@foo \x7b\x7d" : String).data
      = some (ScopeContent.rule (Rule.mk [⟨"@foo"⟩] []), [])
    ∧ (hasPfx ['@', 'm', 'e', 'd', 'i', 'a'] ("@foo" : String).data = false
      ∧ hasPfx ['@', 's', 'u', 'p', 'p', 'o', 'r', 't', 's'] ("@foo" : String).data = false) :=
  ⟨rfl, C7_opaque_never_media.1 9 (("@foo \x7b\x7d" : String).data)
    (ScopeContent.rule (Rule.mk [⟨"@foo"⟩] [])) [] rfl
    (Rule.mk [⟨"@foo"⟩] []) rfl ⟨"@foo"⟩ (by simp [Rule.condition])⟩

/-- C8: `div, span { color: yellow; }` parses to one block whose condition
is exactly the two selectors `div` then `span`, in order; in general every
comma-delimited entry of a selector list becomes exactly one selector, each
holding a single fragment. -/
theorem C8_selector_list :
    parse ("div, span \x7b color: yellow; \x7d" : String)
      = Except.ok ⟨[ScopeContent.block
          ⟨[⟨[⟨"div"⟩]⟩, ⟨[⟨"span"⟩]⟩], [⟨"color", [⟨"yellow"⟩]⟩]⟩]⟩
    ∧ (∀ (i : Input) (sels : List Selector) (r : Input),
        conditionP i = some (sels, r) →
        ∀ sel ∈ sels, sel.fragments.length = 1) := by
  refine ⟨rfl, fun i sels r h sel hsel => ?_⟩
  obtain ⟨m, rfl⟩ := conditionP_all h sel hsel
  rfl

/-- C8 witness at a concrete selector list. -/
theorem C8_selector_list_witness :
    conditionP ("div, span " : String).data
      = some ([⟨[⟨"div"⟩]⟩, ⟨[⟨"span"⟩]⟩], [])
    ∧ (∀ sel ∈ [(⟨[⟨"div"⟩]⟩ : Selector), ⟨[⟨"span"⟩]⟩], sel.fragments.length = 1) :=
  ⟨rfl, C8_selector_list.2 (("div, span " : String).data)
    [⟨[⟨"div"⟩]⟩, ⟨[⟨"span"⟩]⟩] [] rfl⟩

/-- C9: parsing the empty string succeeds and yields the empty sheet (zero
scope contents); empty input is not an error. -/
theorem C9_empty_input : parse ("" : String) = Except.ok ⟨[]⟩ := rfl

/-- C10: in every sheet returned by a successful parse, every selector and
every attribute value consists of exactly one fragment; at rule level, the
selector and attribute-value parsers always build exactly one fragment whose
text is the whole consumed span, trimmed (`mkFragment`). -/
theorem C10_single_fragment :
    (∀ (css : String) (sh : Sheet), parse css = Except.ok sh → GoodSheet sh)
    ∧ (∀ (i : Input) (sel : Selector) (r : Input),
        selectorP i = some (sel, r) → ∃ m, sel = (⟨[mkFragment m]⟩ : Selector))
    ∧ (∀ (i : Input) (v : StringFragment) (r : Input),
        style_attr_value i = some (v, r) → ∃ m, v = mkFragment m) := by
  refine ⟨?_, fun i sel r h => selectorP_shape h, fun i v r h => style_attr_value_shape h⟩
  intro css sh h
  unfold parse at h
  split at h
  · exact Except.noConfusion h
  · next res rest hs =>
    injection h with h
    subst h
    exact sheetP_good hs

/-- C10 witness at a concrete input. -/
theorem C10_single_fragment_witness :
    parse ("div \x7b color: red; \x7d" : String)
      = Except.ok ⟨[ScopeContent.block ⟨[⟨[⟨"div"⟩]⟩], [⟨"color", [⟨"red"⟩]⟩]⟩]⟩
    ∧ GoodSheet ⟨[ScopeContent.block ⟨[⟨[⟨"div"⟩]⟩], [⟨"color", [⟨"red"⟩]⟩]⟩]⟩ :=
  ⟨rfl, C10_single_fragment.1 ("div \x7b color: red; \x7d" : String)
    ⟨[ScopeContent.block ⟨[⟨[⟨"div"⟩]⟩], [⟨"color", [⟨"red"⟩]⟩]⟩]⟩ rfl⟩

end Stylist
